import Mathlib

/-!
Verification of the Elios interpreter core (`src/lib/interpreter.js`,
`src/lib/utils.js`).  The JavaScript source is shallowly embedded:

* strings are Lean `String`s (ops are performed on their `Char` lists;
  JS `.length`/indices count UTF-16 units, modelled here as characters,
  which agrees on all non-astral text);
* the mutable interpreter instance (`this.variables`, `this.shouldExit`,
  `this.shouldBreak`, `this.shouldContinue`) is an explicit state record
  threaded through every function;
* `console.log` / `console.error` become `trace` / `errors` lists in the
  state (observational instrumentation: `trace` additionally records each
  directive line dispatched by `executeLine`, so that "statement X was
  executed" is expressible);
* the dynamic function registry (`this.functions`, extensible by plugins)
  and the two evaluator entry points that depend on it or on the embedded
  JS `eval` (`this.evaluateCondition`, `this.evaluateNestedFunctions`) are
  parameters of the embedding, bundled in a context `Ctx`;
* JS recursion is modelled with an explicit fuel argument (`none` = fuel
  exhausted); all claims are proved for sufficiently large fuel.
-/

/-- The JS `\s` character class (whitespace as used by `String.prototype.trim`
and the regex `/\s+/g` in `handleTrim`), by code point: space, tab, LF, CR,
VT, FF, NBSP, OGHAM space, LSEP, PSEP, NNBSP, MMSP, ideographic space, BOM,
and the U+2000-U+200A range. -/
def isJsWs (c : Char) : Bool :=
  let n := c.toNat
  [32, 9, 10, 13, 11, 12, 160, 5760, 8232, 8233, 8239, 8287, 12288, 65279].contains n ||
  (8192 ≤ n && n ≤ 8202)

/-- Strip leading and trailing JS whitespace from a character list. -/
def jsTrimList (l : List Char) : List Char :=
  ((l.dropWhile isJsWs).reverse.dropWhile isJsWs).reverse

/-- Model of JS `String.prototype.trim`. -/
def jsTrim (s : String) : String := ⟨jsTrimList s.data⟩

/-- `String.prototype.startsWith`, computed on the character lists
(the core library version does not reduce in the kernel). -/
def strStarts (s pre : String) : Bool := pre.data.isPrefixOf s.data

/-- `String.prototype.endsWith`, computed on the character lists. -/
def strEnds (s suf : String) : Bool := suf.data.isSuffixOf s.data

/-- Model of `cleanQuotes` (src/lib/utils.js): trim, then strip one pair of
matching surrounding quotes. -/
def cleanQuotes (text : String) : String :=
  let r := jsTrim text
  if (strStarts r "\"" && strEnds r "\"") || (strStarts r "\x27" && strEnds r "\x27") then
    ⟨(r.data.drop 1).dropLast⟩
  else r

/-- Model of `text.replace(/\s+/g, '')` in `handleTrim` (src/lib/utils.js):
each maximal run of whitespace is replaced by the empty string. -/
def stripWsRuns : List Char → List Char
  | [] => []
  | c :: rest =>
    if isJsWs c then stripWsRuns (rest.dropWhile isJsWs)
    else c :: stripWsRuns rest
termination_by l => l.length
decreasing_by
  all_goals simp only [List.length_cons]
  · have := (List.dropWhile_sublist isJsWs (l := rest)).length_le
    omega
  · omega

/-- Core of `handleTrim` (src/lib/utils.js lines 286-295), applied to the
already resolved, unquoted argument (the source handler first applies
`evaluateNestedFunctions`, `replaceVariables` and `cleanQuotes`). -/
def handleTrimCore (text : String) : String := ⟨stripWsRuns text.data⟩

theorem filterNotWs_dropWhile (l : List Char) :
    (l.dropWhile isJsWs).filter (fun c => !isJsWs c) = l.filter (fun c => !isJsWs c) := by
  induction l with
  | nil => rfl
  | cons c rest ih =>
    by_cases h : isJsWs c
    · simp [List.dropWhile, List.filter, h, ih]
    · simp [List.dropWhile, List.filter, h]

theorem stripWsRuns_eq_filter (l : List Char) :
    stripWsRuns l = l.filter (fun c => !isJsWs c) := by
  induction l using stripWsRuns.induct with
  | case1 => rw [stripWsRuns]; rfl
  | case2 c rest h ih =>
    rw [stripWsRuns]
    simp [h, ih, List.filter, filterNotWs_dropWhile]
  | case3 c rest h ih =>
    rw [stripWsRuns]
    simp [h, ih, List.filter]

/-- C9: `handleTrim` removes every whitespace character of its (resolved,
unquoted) argument — interior whitespace as well as leading and trailing,
not just the ends: the result is exactly the whitespace-free subsequence,
and `trim` applied to `"a b"` yields `"ab"`. -/
theorem trim_removes_all_whitespace :
    (∀ s : String, (handleTrimCore s).data = s.data.filter (fun c => !isJsWs c)) ∧
    handleTrimCore "a b" = "ab" ∧ handleTrimCore " a \t b " = "ab" := by
  have key : ∀ s : String, (handleTrimCore s).data = s.data.filter (fun c => !isJsWs c) := by
    intro s
    simp [handleTrimCore, stripWsRuns_eq_filter]
  refine ⟨key, String.ext ?_, String.ext ?_⟩
  · rw [key]; decide
  · rw [key]; decide

/-- Model of JS `text.split(';')` (on a character list, with accumulator). -/
def splitSemiAux : List Char → List Char → List (List Char)
  | [], acc => [acc.reverse]
  | c :: rest, acc =>
    if c = ';' then acc.reverse :: splitSemiAux rest []
    else splitSemiAux rest (c :: acc)

/-- Core of `handleLen` (src/lib/utils.js lines 215-234), applied to the
already resolved, unquoted argument: empty string gives "0"; text
containing ';' gives the number of ';'-separated segments; otherwise the
character count. -/
def handleLenCore (text : String) : String :=
  if text = "" then "0"
  else if text.data.contains ';' then
    toString (if text = "" then 0 else (splitSemiAux text.data []).length)
  else toString text.data.length

theorem splitSemiAux_length (l : List Char) (acc : List Char) :
    (splitSemiAux l acc).length = l.count ';' + 1 := by
  induction l generalizing acc with
  | nil => simp [splitSemiAux]
  | cons c rest ih =>
    by_cases h : c = ';'
    · simp [splitSemiAux, h, ih, List.count_cons]
    · simp [splitSemiAux, h, ih, List.count_cons]

/-- C10: `handleLen` returns the character count only when the resolved,
unquoted argument contains no ';'; with at least one ';' it returns the
number of ';'-separated segments (one more than the number of ';'
occurrences), and for the empty string it returns "0". -/
theorem len_counts_chars_or_segments :
    handleLenCore "" = "0" ∧
    (∀ s : String, s.data.contains ';' = true →
      handleLenCore s = toString ((splitSemiAux s.data []).length) ∧
      handleLenCore s = toString (s.data.count ';' + 1)) ∧
    (∀ s : String, s.data.contains ';' = false → s ≠ "" →
      handleLenCore s = toString s.data.length) := by
  refine ⟨by decide, fun s hs => ?_, fun s hs hne => ?_⟩
  · have hne : s ≠ "" := by
      intro h; subst h; simp at hs
    have h1 : handleLenCore s = toString ((splitSemiAux s.data []).length) := by
      rw [handleLenCore, if_neg hne, if_pos hs, if_neg hne]
    exact ⟨h1, by rw [h1, splitSemiAux_length]⟩
  · rw [handleLenCore, if_neg hne, if_neg (by simp only [hs]; exact Bool.false_ne_true)]

/-- Witness for C10 at concrete inputs. -/
theorem len_counts_chars_or_segments_witness :
    handleLenCore "a;b" = toString ((("a;b" : String).data.count ';') + 1) ∧
    handleLenCore "abcd" = toString ("abcd" : String).data.length :=
  ⟨(len_counts_chars_or_segments.2.1 "a;b" (by decide)).2,
   len_counts_chars_or_segments.2.2 "abcd" (by decide) (by decide)⟩

/-- Decimal digit test by code point. -/
def isDigitCh (c : Char) : Bool := 48 ≤ c.toNat && c.toNat ≤ 57

/-- Numeric value of a list of decimal digits. -/
def natOfDigits (l : List Char) : Nat := l.foldl (fun a c => a * 10 + (c.toNat - 48)) 0

/-- Exact decimal number with value `num / 10 ^ exp10`.  Models the finite
values produced by the JS builtin `parseFloat` and the arithmetic the
engine performs on them (binary floating-point rounding is not modelled;
it does not affect any claim in this development). -/
structure JsNum where
  num : Int
  exp10 : Nat
deriving DecidableEq, Repr

/-- Model of `Number.isInteger`. -/
def JsNum.isInt (a : JsNum) : Bool := a.num % ((10 : Int) ^ a.exp10) == 0

/-- Model of the JS `<` comparison on numbers. -/
def JsNum.blt (a b : JsNum) : Bool := a.num * (10 : Int) ^ b.exp10 < b.num * (10 : Int) ^ a.exp10

/-- Model of `i++` on a JS number. -/
def JsNum.inc (a : JsNum) : JsNum := ⟨a.num + (10 : Int) ^ a.exp10, a.exp10⟩

/-- Model of the JS builtin `parseFloat`: skip leading whitespace, optional
sign, longest valid decimal prefix `digits [. digits] [(e|E) [sign] digits]`
(at least one digit before or after the dot), `none` for NaN.  The special
literal `Infinity` is not modelled; no claim depends on it. -/
def jsParseFloat (s : String) : Option JsNum :=
  let l := s.data.dropWhile isJsWs
  let neg : Bool := match l with | '-' :: _ => true | _ => false
  let l1 := match l with | '-' :: r => r | '+' :: r => r | r => r
  let intPart := l1.takeWhile isDigitCh
  let l2 := l1.drop intPart.length
  let fracPart := match l2 with | '.' :: r => r.takeWhile isDigitCh | _ => []
  let l3 := match l2 with | '.' :: r => r.drop fracPart.length | r => r
  if intPart.isEmpty && fracPart.isEmpty then none
  else
    let mant : Int := natOfDigits (intPart ++ fracPart)
    let mant := if neg then -mant else mant
    let expDigits := match l3 with
      | 'e' :: '-' :: r => r.takeWhile isDigitCh
      | 'e' :: '+' :: r => r.takeWhile isDigitCh
      | 'e' :: r => r.takeWhile isDigitCh
      | 'E' :: '-' :: r => r.takeWhile isDigitCh
      | 'E' :: '+' :: r => r.takeWhile isDigitCh
      | 'E' :: r => r.takeWhile isDigitCh
      | _ => []
    let expNeg : Bool := match l3 with
      | 'e' :: '-' :: _ => true
      | 'E' :: '-' :: _ => true
      | _ => false
    if expDigits.isEmpty then some ⟨mant, fracPart.length⟩
    else if expNeg then some ⟨mant, fracPart.length + natOfDigits expDigits⟩
    else some ⟨mant * (10 : Int) ^ natOfDigits expDigits, fracPart.length⟩

/-- Model of JS `Number.isInteger(parseFloat(s))`: `false` on NaN. -/
def isIntegerOpt : Option JsNum → Bool
  | some q => q.isInt
  | none => false

/-- JSON structural whitespace. -/
def isJsonWs (c : Char) : Bool := c == ' ' || c == '\t' || c == '\n' || c == '\r'

/-- Skip JSON whitespace. -/
def skipJsonWs (l : List Char) : List Char := l.dropWhile isJsonWs

/-- Hexadecimal digit test. -/
def isHexDigit (c : Char) : Bool :=
  isDigitCh c || (97 ≤ c.toNat && c.toNat ≤ 102) || (65 ≤ c.toNat && c.toNat ≤ 70)

/-- Expect a literal suffix (used for `null`, `true`, `false`). -/
def expectLit (lit : List Char) (l : List Char) : Option (List Char) :=
  if lit.isPrefixOf l then some (l.drop lit.length) else none

/-- JSON number: `-? (0 | [1-9][0-9]*) (. [0-9]+)? ([eE][+-]?[0-9]+)?`. -/
def jsonNum (l : List Char) : Option (List Char) :=
  let l1 := match l with | '-' :: r => r | r => r
  match l1 with
  | '0' :: r => jsonNumFrac r
  | c :: _ =>
    if isDigitCh c then jsonNumFrac (l1.drop (l1.takeWhile isDigitCh).length) else none
  | [] => none
where
  jsonNumFrac (l : List Char) : Option (List Char) :=
    let l2 := match l with
      | '.' :: r => if (r.takeWhile isDigitCh).isEmpty then none
                    else some (r.drop (r.takeWhile isDigitCh).length)
      | r => some r
    match l2 with
    | none => none
    | some l3 =>
      match l3 with
      | 'e' :: r | 'E' :: r =>
        let r1 := match r with | '+' :: r2 => r2 | '-' :: r2 => r2 | r2 => r2
        if (r1.takeWhile isDigitCh).isEmpty then none
        else some (r1.drop (r1.takeWhile isDigitCh).length)
      | r => some r

/-- Fueled recursive-descent acceptor for JSON values (models `JSON.parse`
succeeding).  `mode`: 0 = value, 1 = array start, 3 = after array element,
2 = object start, 4 = after object member, 5 = string tail after the
opening quote.  Returns the unconsumed rest on success. -/
def jsonP : Nat → Nat → List Char → Option (List Char)
  | 0, _, _ => none
  | fuel + 1, mode, l =>
    if mode = 0 then
      match l with
      | 'n' :: r => expectLit ['u', 'l', 'l'] r
      | 't' :: r => expectLit ['r', 'u', 'e'] r
      | 'f' :: r => expectLit ['a', 'l', 's', 'e'] r
      | '"' :: r => jsonP fuel 5 r
      | '[' :: r => jsonP fuel 1 (skipJsonWs r)
      | '{' :: r => jsonP fuel 2 (skipJsonWs r)
      | r => jsonNum r
    else if mode = 1 then
      match l with
      | ']' :: r => some r
      | r => (jsonP fuel 0 r).bind fun r1 => jsonP fuel 3 (skipJsonWs r1)
    else if mode = 3 then
      match l with
      | ']' :: r => some r
      | ',' :: r => (jsonP fuel 0 (skipJsonWs r)).bind fun r1 => jsonP fuel 3 (skipJsonWs r1)
      | _ => none
    else if mode = 2 then
      match l with
      | '}' :: r => some r
      | '"' :: r =>
        (jsonP fuel 5 r).bind fun r1 =>
          match skipJsonWs r1 with
          | ':' :: r2 => (jsonP fuel 0 (skipJsonWs r2)).bind fun r3 => jsonP fuel 4 (skipJsonWs r3)
          | _ => none
      | _ => none
    else if mode = 4 then
      match l with
      | '}' :: r => some r
      | ',' :: r =>
        match skipJsonWs r with
        | '"' :: r1 =>
          (jsonP fuel 5 r1).bind fun r2 =>
            match skipJsonWs r2 with
            | ':' :: r3 => (jsonP fuel 0 (skipJsonWs r3)).bind fun r4 => jsonP fuel 4 (skipJsonWs r4)
            | _ => none
        | _ => none
      | _ => none
    else
      match l with
      | '"' :: r => some r
      | '\\' :: c :: r =>
        if c = '"' || c = '\\' || c = '/' || c = 'b' || c = 'f' || c = 'n' || c = 'r' || c = 't' then
          jsonP fuel 5 r
        else if c = 'u' then
          match r with
          | a :: b :: c2 :: d :: r2 =>
            if isHexDigit a && isHexDigit b && isHexDigit c2 && isHexDigit d then jsonP fuel 5 r2
            else none
          | _ => none
        else none
      | c :: r => if c.toNat < 32 then none else jsonP fuel 5 r
      | [] => none

/-- Model of `JSON.parse(s)` succeeding (used by `handleTypeOf`). -/
def jsJsonParseable (s : String) : Bool :=
  match jsonP (4 * s.data.length + 16) 0 (skipJsonWs s.data) with
  | some r => (skipJsonWs r).isEmpty
  | none => false

/-- `handleTypeOf` (src/lib/utils.js lines 1050-1077) on the resolved,
unquoted argument, with the success of `JSON.parse` abstracted as `jsonOk`:
bool check, then empty check, then numeric (int/float) check, then JSON,
else string. -/
def typeOfCore (jsonOk : String → Bool) (s : String) : String :=
  if s = "true" || s = "false" then "bool"
  else if jsTrim s = "" then "empty"
  else if (jsParseFloat s).isSome && !(jsTrim s == "") then
    if isIntegerOpt (jsParseFloat s) then "int" else "float"
  else if jsonOk s then "json" else "string"

/-- `handleTypeOf` with the concrete JSON model. -/
def handleTypeOf (s : String) : String := typeOfCore jsJsonParseable s

/-- C6 counterexample: the claim says every argument that is not
bool/int/float/json-classified yields "string", but the code classifies a
blank argument as "empty": `typeOf` of the empty string is "empty", not
"string" (the empty string is not "true"/"false", not numeric, and not
valid JSON). -/
theorem typeOf_empty_not_string :
    handleTypeOf "" = "empty" ∧ handleTypeOf "" ≠ "string" ∧
    jsParseFloat "" = none ∧ jsJsonParseable "" = false := by
  refine ⟨?_, ?_, ?_, ?_⟩ <;> decide

/-- C6 (amended): for every input string and every JSON-validity predicate,
`typeOf` returns "bool" when the resolved, unquoted argument is "true" or
"false"; otherwise "empty" when the argument trims to the empty string;
otherwise "int" when it parses as an integer number and "float" when it
parses as a non-integer number; otherwise "json" when it parses as valid
JSON; and "string" for everything else — checks applied in exactly that
precedence order. -/
theorem typeOf_classification (jsonOk : String → Bool) (s : String) :
    ((s = "true" ∨ s = "false") → typeOfCore jsonOk s = "bool") ∧
    (s ≠ "true" → s ≠ "false" → jsTrim s = "" → typeOfCore jsonOk s = "empty") ∧
    (∀ q : JsNum, s ≠ "true" → s ≠ "false" → jsTrim s ≠ "" → jsParseFloat s = some q →
      typeOfCore jsonOk s = (if q.isInt then "int" else "float")) ∧
    (s ≠ "true" → s ≠ "false" → jsTrim s ≠ "" → jsParseFloat s = none → jsonOk s = true →
      typeOfCore jsonOk s = "json") ∧
    (s ≠ "true" → s ≠ "false" → jsTrim s ≠ "" → jsParseFloat s = none → jsonOk s = false →
      typeOfCore jsonOk s = "string") := by
  refine ⟨fun h => ?_, fun h1 h2 h3 => ?_, fun q h1 h2 h3 h4 => ?_, fun h1 h2 h3 h4 h5 => ?_,
    fun h1 h2 h3 h4 h5 => ?_⟩
  · rcases h with h | h <;> simp [typeOfCore, h]
  · rw [typeOfCore, if_neg (by simp [h1, h2]), if_pos h3]
  · rw [typeOfCore, if_neg (by simp [h1, h2]), if_neg h3,
      if_pos (by simp [h4, h3])]
    simp [isIntegerOpt, h4]
  · rw [typeOfCore, if_neg (by simp [h1, h2]), if_neg h3, if_neg (by simp [h4]), if_pos h5]
  · rw [typeOfCore, if_neg (by simp [h1, h2]), if_neg h3, if_neg (by simp [h4]),
      if_neg (by simp [h5])]

/-- Witness for C6 (amended) at concrete inputs, with the concrete JSON model. -/
theorem typeOf_classification_witness :
    handleTypeOf "true" = "bool" ∧ handleTypeOf "  " = "empty" ∧
    handleTypeOf "42" = "int" ∧ handleTypeOf "4.5" = "float" ∧
    handleTypeOf "[1, 2]" = "json" ∧ handleTypeOf "abc" = "string" :=
  ⟨(typeOf_classification jsJsonParseable "true").1 (Or.inl rfl),
   (typeOf_classification jsJsonParseable "  ").2.1 (by decide) (by decide) (by decide),
   by
    have h := (typeOf_classification jsJsonParseable "42").2.2.1 ⟨42, 0⟩
      (by decide) (by decide) (by decide) (by decide)
    simpa using h,
   by
    have h := (typeOf_classification jsJsonParseable "4.5").2.2.1 ⟨45, 1⟩
      (by decide) (by decide) (by decide) (by decide)
    simpa using h,
   (typeOf_classification jsJsonParseable "[1, 2]").2.2.2.1
     (by decide) (by decide) (by decide) (by decide) (by decide),
   (typeOf_classification jsJsonParseable "abc").2.2.2.2
     (by decide) (by decide) (by decide) (by decide) (by decide)⟩

/-- Lookup in the variable store (`this.variables.get`); the store is an
insertion-ordered association list with unique keys, modelling a JS `Map`. -/
def lookupVar (vars : List (String × String)) (k : String) : Option String :=
  match vars.find? (fun p => p.1 == k) with
  | some p => some p.2
  | none => none

/-- Model of `this.variables.set`: overwrite in place, else append. -/
def setVar : List (String × String) → String → String → List (String × String)
  | [], k, v => [(k, v)]
  | (k0, v0) :: rest, k, v =>
    if k0 == k then (k0, v) :: rest else (k0, v0) :: setVar rest k v

/-- The comparator `(a, b) => b[0].length - a[0].length` of `replaceVariables`:
entry `a` sorts no later than `b` when its key is at least as long. -/
def keyLenGe (a b : String × String) : Prop := b.1.length ≤ a.1.length

instance : DecidableRel keyLenGe := fun a b => Nat.decLe b.1.length a.1.length

instance : IsTotal (String × String) keyLenGe :=
  ⟨fun a b => Nat.le_total b.1.length a.1.length⟩

instance : IsTrans (String × String) keyLenGe :=
  ⟨fun _ _ _ h1 h2 => Nat.le_trans h2 h1⟩

/-- `entries.sort((a, b) => b[0].length - a[0].length)`: stable sort by
descending key length (JS `Array.prototype.sort` is stable, as is
insertion sort). -/
def sortEntriesDesc (entries : List (String × String)) : List (String × String) :=
  entries.insertionSort keyLenGe

/-- First alternative of the alternation `\$(k1|k2|...)` that matches at the
current position (JS regex alternation tries alternatives left to right). -/
def firstKeyMatch : List String → List Char → Option String
  | [], _ => none
  | k :: rest, l => if k.data.isPrefixOf l then some k else firstKeyMatch rest l

/-- The global-regex replacement scan of `replaceVariables`: at each `$`,
try the (length-sorted) keys; on a match emit `this.variables.get(name)`
(keeping the matched text if the lookup were undefined, as in the source)
and continue after the match; otherwise keep scanning. -/
def replVarsList (vars : List (String × String)) (keys : List String) : List Char → List Char
  | [] => []
  | c :: rest =>
    if c = '$' then
      match firstKeyMatch keys rest with
      | some k =>
        (match lookupVar vars k with
         | some v => v.data
         | none => '$' :: k.data) ++ replVarsList vars keys (rest.drop k.data.length)
      | none => c :: replVarsList vars keys rest
    else c :: replVarsList vars keys rest
termination_by l => l.length
decreasing_by
  all_goals simp only [List.length_cons]
  · have := List.length_drop k.data.length rest
    omega
  · omega
  · omega

/-- `replaceVariables` (src/lib/utils.js lines 528-543): empty store returns
the text unchanged; otherwise one pass with the alternation of all defined
names sorted longest-first. -/
def replaceVariables (vars : List (String × String)) (text : String) : String :=
  if vars.isEmpty then text
  else ⟨replVarsList vars ((sortEntriesDesc vars).map Prod.fst) text.data⟩

theorem firstKeyMatch_longest (keys : List String) (k : String) (l : List Char)
    (hsort : List.Sorted (fun a b : String => b.length ≤ a.length) keys)
    (hmem : k ∈ keys) (hmatch : k.data.isPrefixOf l = true)
    (hmax : ∀ k' ∈ keys, k'.data.isPrefixOf l = true → k'.length ≤ k.length) :
    firstKeyMatch keys l = some k := by
  induction keys with
  | nil => cases hmem
  | cons k0 rest ih =>
    rw [List.sorted_cons] at hsort
    by_cases h0 : k0.data.isPrefixOf l = true
    · rw [firstKeyMatch, if_pos h0]
      have hlen0 : k0.length ≤ k.length := hmax k0 (List.mem_cons_self k0 rest) h0
      have hk0 : k = k0 := by
        rcases List.mem_cons.mp hmem with h | h
        · exact h
        · have hlen1 : k.length ≤ k0.length := hsort.1 k h
          have hlen : k.data.length = k0.data.length := by
            have e1 : k.length = k.data.length := rfl
            have e2 : k0.length = k0.data.length := rfl
            omega
          rcases List.isPrefixOf_iff_prefix.mp hmatch with ⟨t, ht⟩
          rcases List.isPrefixOf_iff_prefix.mp h0 with ⟨t0, ht0⟩
          have : k.data = k0.data := (List.append_inj (ht.trans ht0.symm) hlen).1
          exact String.ext this
      rw [hk0]
    · have hk0 : k ≠ k0 := by
        intro h; rw [h] at hmatch; exact h0 hmatch
      have hmem' : k ∈ rest := by
        rcases List.mem_cons.mp hmem with h | h
        · exact absurd h hk0
        · exact h
      rw [firstKeyMatch, if_neg h0]
      exact ih hsort.2 hmem' (fun k' hk' hp => hmax k' (List.mem_cons_of_mem k0 hk') hp)

theorem lookupVar_mem_keys (vars : List (String × String)) (k v : String)
    (hk : lookupVar vars k = some v) : k ∈ vars.map Prod.fst := by
  rw [lookupVar] at hk
  rcases hfind : vars.find? (fun p => p.1 == k) with _ | p
  · rw [hfind] at hk; cases hk
  · have := List.find?_some hfind
    have hmem := List.mem_of_find?_eq_some hfind
    have : p.1 = k := by simpa using this
    subst this
    exact List.mem_map_of_mem Prod.fst hmem

/-- C7: variable substitution builds a single alternation of all defined
names ordered longest-first, so at any reference the (unique) longest
defined name matching there is substituted; a defined name that is a
textual prefix of another defined name never partially matches.  In
particular with `name="a"` and `name2="b"` defined, `$name2` yields `"b"`. -/
theorem replaceVariables_longest_first
    (vars : List (String × String)) (k v rest : String)
    (hk : lookupVar vars k = some v)
    (hmax : ∀ p ∈ vars, p.1.data.isPrefixOf (k.data ++ rest.data) = true → p.1.length ≤ k.length) :
    replaceVariables vars ⟨'$' :: (k.data ++ rest.data)⟩ =
      ⟨v.data ++ (replaceVariables vars rest).data⟩ := by
  have hne : vars.isEmpty = false := by
    rcases vars with _ | ⟨p, vs⟩
    · rw [lookupVar] at hk; simp [List.find?] at hk
    · rfl
  set keys := (sortEntriesDesc vars).map Prod.fst with hkeys
  have hperm : List.Perm (sortEntriesDesc vars) vars := List.perm_insertionSort keyLenGe vars
  have hsort : List.Sorted (fun a b : String => b.length ≤ a.length) keys := by
    have h1 : List.Sorted keyLenGe (sortEntriesDesc vars) :=
      List.sorted_insertionSort keyLenGe vars
    exact List.Pairwise.map Prod.fst (fun a b h => h) h1
  have hmemk : k ∈ keys := by
    rw [hkeys]
    exact ((hperm.map Prod.fst).mem_iff).mpr (lookupVar_mem_keys vars k v hk)
  have hmatch : k.data.isPrefixOf (k.data ++ rest.data) = true :=
    List.isPrefixOf_iff_prefix.mpr ⟨rest.data, rfl⟩
  have hmax' : ∀ k' ∈ keys, k'.data.isPrefixOf (k.data ++ rest.data) = true →
      k'.length ≤ k.length := by
    intro k' hk' hp
    rcases List.mem_map.mp (((hperm.map Prod.fst).mem_iff).mp hk') with ⟨p, hpmem, hpk⟩
    subst hpk
    exact hmax p hpmem hp
  have hfirst := firstKeyMatch_longest keys k (k.data ++ rest.data) hsort hmemk hmatch hmax'
  rw [replaceVariables, if_neg (by simp [hne])]
  rw [replaceVariables, if_neg (by simp [hne])]
  have : replVarsList vars keys ('$' :: (k.data ++ rest.data)) =
      v.data ++ replVarsList vars keys rest.data := by
    rw [replVarsList, if_pos rfl, hfirst]
    simp only [hk, List.drop_left]
  rw [this]

/-- Witness for C7: with `name="a"` and `name2="b"` defined, substituting
`$name2` yields `"b"`, never `"a"` followed by a literal `"2"`. -/
theorem replaceVariables_longest_first_witness :
    replaceVariables [("name", "a"), ("name2", "b")] "$name2" = "b" ∧ ("b" : String) ≠ "a2" := by
  have h := replaceVariables_longest_first [("name", "a"), ("name2", "b")] "name2" "b" ""
    (by decide) (by decide)
  have h0 : replaceVariables [("name", "a"), ("name2", "b")] "" = "" := by
    rw [replaceVariables]
    simp [replVarsList]
  rw [h0] at h
  have e1 : ("$name2" : String) = ⟨'$' :: (("name2" : String).data ++ ("" : String).data)⟩ := by
    decide
  have e2 : (⟨("b" : String).data ++ ("" : String).data⟩ : String) = "b" := by decide
  exact ⟨by rw [e1, h, e2], by decide⟩

/-- Model of JS `String(n)` for a `JsNum`: exact integer rendering when the
value is integral, otherwise sign, integer part, `.`, and the fraction
digits without trailing zeros (the shortest-roundtrip rule of JS float
printing agrees with this on the short decimals the engine produces). -/
def jsNumToString (a : JsNum) : String :=
  let p : Int := (10 : Int) ^ a.exp10
  if a.num % p == 0 then toString (a.num / p)
  else
    let n := a.num.natAbs
    let ip := n / (10 : Nat) ^ a.exp10
    let fr := n % (10 : Nat) ^ a.exp10
    let frDigits := Nat.toDigits 10 fr
    let padded := List.replicate (a.exp10 - frDigits.length) '0' ++ frDigits
    let trimmed := (padded.reverse.dropWhile (fun c => c = '0')).reverse
    (if a.num < 0 then "-" else "") ++ toString ip ++ "." ++ (⟨trimmed⟩ : String)

/-- Execution state of one interpreter instance: the variable store, the
control flags and exit code, plus two observation channels: `trace` records
each directive line dispatched by `executeLine` (instrumentation making
"statement X was executed" expressible) and `errors` records `console.error`
messages emitted by the engine. -/
structure EState where
  vars : List (String × String)
  shouldExit : Bool
  exitCode : Int
  shouldBreak : Bool
  shouldContinue : Bool
  trace : List String
  errors : List String
deriving DecidableEq, Repr

/-- The state right after `new EliosInterpreter()`. -/
def initState : EState := ⟨[], false, 0, false, false, [], []⟩

/-- No control flag is set. -/
def flagsClear (s : EState) : Prop :=
  s.shouldExit = false ∧ s.shouldBreak = false ∧ s.shouldContinue = false

instance (s : EState) : Decidable (flagsClear s) := by
  unfold flagsClear; infer_instance

/-- Execution context: the line array (immutable during execution) and the
dynamic parameters of the embedding — the function registry `fns` (name ↦
handler mutating the state; extensible by plugins in the source), and the
two evaluator entry points whose behavior depends on the registry and on the
embedded JS `eval`: `evalCond` models `this.evaluateCondition` and
`evalNested` models `this.evaluateNestedFunctions`; both may mutate the
state because nested directive calls run handlers. -/
structure Ctx where
  lines : List String
  fns : String → Option (String → EState → EState)
  evalCond : String → EState → Bool × EState
  evalNested : String → EState → String × EState

/-- JS `\w` word character. -/
def isWordCh (c : Char) : Bool :=
  (48 ≤ c.toNat && c.toNat ≤ 57) || (65 ≤ c.toNat && c.toNat ≤ 90) ||
  (97 ≤ c.toNat && c.toNat ≤ 122) || c = '_'

/-- Anchored match `^<pre>(.*)\]$` for a fixed prefix such as `§if[`:
the argument text between the prefix and the final `]`. -/
def matchBracket (pre : String) (line : String) : Option String :=
  if pre.data.isPrefixOf line.data && strEnds line "]" &&
      decide (pre.data.length < line.data.length) then
    some ⟨(line.data.drop pre.data.length).dropLast⟩
  else none

/-- The regex `^§(\w+)(?:\[(.*)\])?$` of `executeLine`: directive name and
argument text (`''` when the bracket group is absent). -/
def parseDirective (line : String) : Option (String × String) :=
  match line.data with
  | '§' :: rest =>
    let name := rest.takeWhile isWordCh
    if name.isEmpty then none
    else
      match rest.drop name.length with
      | [] => some (⟨name⟩, "")
      | '[' :: r =>
        if r.getLast? = some ']' then some (⟨name⟩, ⟨r.dropLast⟩) else none
      | _ => none
  | _ => none

/-- The regex `^§for\[([^;]+);([^;]+);([^\]]+)\]$` of `processFor`:
loop variable text, start expression, end expression. -/
def matchFor (line : String) : Option (String × String × String) :=
  match matchBracket "§for[" line with
  | none => none
  | some inner =>
    let l := inner.data
    let p1 := l.takeWhile (fun c => c ≠ ';')
    match l.drop p1.length with
    | ';' :: r2 =>
      let p2 := r2.takeWhile (fun c => c ≠ ';')
      match r2.drop p2.length with
      | ';' :: p3 =>
        if p1.isEmpty || p2.isEmpty || p3.isEmpty || p3.contains ']' then none
        else some (⟨p1⟩, ⟨p2⟩, ⟨p3⟩)
      | _ => none
    | _ => none

/-- `executeLine` (interpreter.js lines 856-876): ignore non-directive
lines and everything once `shouldExit` is set; parse `§name[args]`; look
the name up in the registry and invoke its handler (unknown names are
silently ignored).  Dispatched lines are recorded in `trace`. -/
def executeLine (ctx : Ctx) (line : String) (s : EState) : EState :=
  if !(strStarts line "§") || s.shouldExit then s
  else
    match parseDirective line with
    | none => s
    | some (name, args) =>
      let s1 := {s with trace := s.trace ++ [line]}
      match ctx.fns name with
      | some h => h args s1
      | none => s1

/-- The forward scans of `processWhile` (lines 707-714) and `processFor`
(lines 783-790): index of the FIRST line at or after `start` whose trimmed
text starts with `key` — with no depth counting (see C1). -/
def findFirstFrom (key : String) (lines : List String) (start : Nat) : Option Nat :=
  go (lines.drop start) start
where
  go : List String → Nat → Option Nat
    | [], _ => none
    | l :: rest, i => if strStarts (jsTrim l) key then some i else go rest (i + 1)

/-- The skip of `processCondition`'s taken-branch exit (lines 608-612):
advance to the first line starting with `§endif` (again no depth count). -/
def scanToEndif (lines : List String) (start : Nat) : Nat :=
  go (lines.drop start) start
where
  go : List String → Nat → Nat
    | [], i => i
    | l :: rest, i => if strStarts (jsTrim l) "§endif" then i else go rest (i + 1)

/-- The depth-counted skip of a nested `§if` block inside a non-taken
branch (`processCondition` lines 681-689); `ok` is the loop condition's
flag conjunct (the flags cannot change during the scan). -/
def skipIfDepth (ok : Bool) : List String → Nat → Nat → Nat
  | [], i, _ => i
  | l :: rest, i, depth =>
    if depth > 0 && ok then
      let t := jsTrim l
      let d1 := if strStarts t "§if[" then depth + 1 else depth
      let d2 := if strStarts t "§endif" then d1 - 1 else d1
      skipIfDepth ok rest (i + 1) d2
    else i

/-- `console.error` text of `processWhile` when no `§endwhile` exists. -/
def whileNotFoundMsg : String := "Error: §endwhile not found for §while"

/-- `console.error` text of the while-loop iteration ceiling. -/
def whileRunawayMsg : String := "Error: While loop exceeded maximum iterations"

/-- `console.error` text of `processFor` when no `§endfor` exists. -/
def forNotFoundMsg : String := "Error: §endfor not found for §for"

/-- `console.error` text of the for-loop iteration ceiling. -/
def forRunawayMsg : String := "Error: For loop exceeded maximum iterations"

mutual

/-- `processLine` (interpreter.js lines 577-590). -/
def processLine (ctx : Ctx) : Nat → Nat → EState → Option (Nat × EState)
  | 0, _, _ => none
  | fuel + 1, i, s =>
    let line := jsTrim (ctx.lines.getD i "")
    if strStarts line "§if[" then processCondition ctx fuel i s
    else if strStarts line "§while[" then processWhile ctx fuel i s
    else if strStarts line "§for[" then processFor ctx fuel i s
    else some (i + 1, executeLine ctx line s)

/-- `processCondition` (interpreter.js lines 592-697), head part: match the
`§if[...]` line, evaluate the condition, enter the taken or not-taken
branch loop. -/
def processCondition (ctx : Ctx) : Nat → Nat → EState → Option (Nat × EState)
  | 0, _, _ => none
  | fuel + 1, startIndex, s =>
    let ifLine := jsTrim (ctx.lines.getD startIndex "")
    match matchBracket "§if[" ifLine with
    | none => some (startIndex + 1, s)
    | some mainCondition =>
      let rs := ctx.evalCond mainCondition s
      if rs.1 then condTrueLoop ctx fuel (startIndex + 1) rs.2
      else condFalseLoop ctx fuel (startIndex + 1) false rs.2
termination_by structural fuel => fuel

/-- The taken-branch loop of `processCondition` (lines 603-624). -/
def condTrueLoop (ctx : Ctx) : Nat → Nat → EState → Option (Nat × EState)
  | 0, _, _ => none
  | fuel + 1, ci, s =>
    if ci < ctx.lines.length ∧ s.shouldExit = false ∧ s.shouldBreak = false ∧
        s.shouldContinue = false then
      let line := jsTrim (ctx.lines.getD ci "")
      if strStarts line "§endif" then some (ci + 1, s)
      else if strStarts line "§elseif[" || strStarts line "§else" then
        let j := scanToEndif ctx.lines ci
        some (if j < ctx.lines.length then j + 1 else j, s)
      else if strStarts line "§if[" then
        match processCondition ctx fuel ci s with
        | none => none
        | some (ci2, s2) => condTrueLoop ctx fuel ci2 s2
      else
        let s2 := executeLine ctx line s
        if s2.shouldBreak || s2.shouldContinue then some (ci + 1, s2)
        else condTrueLoop ctx fuel (ci + 1) s2
    else some (ci, s)
termination_by structural fuel => fuel

/-- The not-taken-branch loop of `processCondition` (lines 626-693),
carrying `blockExecuted`. -/
def condFalseLoop (ctx : Ctx) : Nat → Nat → Bool → EState → Option (Nat × EState)
  | 0, _, _, _ => none
  | fuel + 1, ci, blockExecuted, s =>
    if ci < ctx.lines.length ∧ s.shouldExit = false ∧ s.shouldBreak = false ∧
        s.shouldContinue = false then
      let line := jsTrim (ctx.lines.getD ci "")
      if strStarts line "§endif" then some (ci + 1, s)
      else if strStarts line "§elseif[" then
        match matchBracket "§elseif[" line, blockExecuted with
        | some cond, false =>
          let rs := ctx.evalCond cond s
          if rs.1 then
            match elseifBodyLoop ctx fuel (ci + 1) rs.2 with
            | none => none
            | some (ci2, s2) => condFalseLoop ctx fuel ci2 true s2
          else condFalseLoop ctx fuel (ci + 1) blockExecuted rs.2
        | _, _ => condFalseLoop ctx fuel (ci + 1) blockExecuted s
      else if strStarts line "§else" then
        if blockExecuted = false then
          match elseBodyLoop ctx fuel (ci + 1) s with
          | none => none
          | some (ci2, s2) => condFalseLoop ctx fuel ci2 true s2
        else condFalseLoop ctx fuel (ci + 1) blockExecuted s
      else if strStarts line "§if[" then
        let j := skipIfDepth (!s.shouldExit && !s.shouldBreak && !s.shouldContinue)
          (ctx.lines.drop (ci + 1)) (ci + 1) 1
        condFalseLoop ctx fuel j blockExecuted s
      else condFalseLoop ctx fuel (ci + 1) blockExecuted s
    else some (ci, s)
termination_by structural fuel => fuel

/-- The taken-`elseif` body loop (lines 638-653): stops at `§endif`,
`§elseif` or `§else`. -/
def elseifBodyLoop (ctx : Ctx) : Nat → Nat → EState → Option (Nat × EState)
  | 0, _, _ => none
  | fuel + 1, ci, s =>
    if ci < ctx.lines.length ∧ s.shouldExit = false ∧ s.shouldBreak = false ∧
        s.shouldContinue = false then
      let line := jsTrim (ctx.lines.getD ci "")
      if strStarts line "§endif" || strStarts line "§elseif[" || strStarts line "§else" then
        some (ci, s)
      else if strStarts line "§if[" then
        match processCondition ctx fuel ci s with
        | none => none
        | some (ci2, s2) => elseifBodyLoop ctx fuel ci2 s2
      else
        let s2 := executeLine ctx line s
        if s2.shouldBreak || s2.shouldContinue then some (ci + 1, s2)
        else elseifBodyLoop ctx fuel (ci + 1) s2
    else some (ci, s)
termination_by structural fuel => fuel

/-- The taken-`else` body loop (lines 662-677): stops at `§endif`. -/
def elseBodyLoop (ctx : Ctx) : Nat → Nat → EState → Option (Nat × EState)
  | 0, _, _ => none
  | fuel + 1, ci, s =>
    if ci < ctx.lines.length ∧ s.shouldExit = false ∧ s.shouldBreak = false ∧
        s.shouldContinue = false then
      let line := jsTrim (ctx.lines.getD ci "")
      if strStarts line "§endif" then some (ci, s)
      else if strStarts line "§if[" then
        match processCondition ctx fuel ci s with
        | none => none
        | some (ci2, s2) => elseBodyLoop ctx fuel ci2 s2
      else
        let s2 := executeLine ctx line s
        if s2.shouldBreak || s2.shouldContinue then some (ci + 1, s2)
        else elseBodyLoop ctx fuel (ci + 1) s2
    else some (ci, s)
termination_by structural fuel => fuel

/-- `processWhile` (interpreter.js lines 699-769): match the `§while[...]`
line, scan for the first `§endwhile`, run the iteration loop, clear both
flags, report the runaway-loop error when the 1000-iteration ceiling was
reached, and continue after the `§endwhile`. -/
def processWhile (ctx : Ctx) : Nat → Nat → EState → Option (Nat × EState)
  | 0, _, _ => none
  | fuel + 1, startIndex, s =>
    let whileLine := jsTrim (ctx.lines.getD startIndex "")
    match matchBracket "§while[" whileLine with
    | none => some (startIndex + 1, s)
    | some condition =>
      match findFirstFrom "§endwhile" ctx.lines (startIndex + 1) with
      | none => some (ctx.lines.length, {s with errors := s.errors ++ [whileNotFoundMsg]})
      | some ewi =>
        match whileLoopAux ctx fuel condition (startIndex + 1) ewi 0 s with
        | none => none
        | some (ic, s1) =>
          let s2 := {s1 with shouldBreak := false, shouldContinue := false}
          let s3 := if 1000 ≤ ic then {s2 with errors := s2.errors ++ [whileRunawayMsg]}
                    else s2
          some (ewi + 1, s3)
termination_by structural fuel => fuel

/-- The iteration loop of `processWhile` (lines 724-759): evaluate the
condition, stop when it is false or the ceiling is reached or `exit` is
set; otherwise clear both flags, run the body, stop on `break` (without
counting the iteration), else count it and re-test.  Returns the final
`iterationCount` together with the state. -/
def whileLoopAux (ctx : Ctx) : Nat → String → Nat → Nat → Nat → EState →
    Option (Nat × EState)
  | 0, _, _, _, _, _ => none
  | fuel + 1, cond, bodyStart, ewi, iterCount, s =>
    let rs := ctx.evalCond cond s
    if rs.1 = true ∧ iterCount < 1000 ∧ rs.2.shouldExit = false then
      let s2 := {rs.2 with shouldBreak := false, shouldContinue := false}
      match whileBodyLoop ctx fuel bodyStart ewi s2 with
      | none => none
      | some s3 =>
        if s3.shouldBreak then some (iterCount, s3)
        else whileLoopAux ctx fuel cond bodyStart ewi (iterCount + 1) s3
    else some (iterCount, rs.2)
termination_by structural fuel => fuel

/-- The body loop of one while iteration (lines 730-748): runs lines up to
(excluding) the `§endwhile` index, stopping early on `exit`, `break`
(checked both in the loop condition and after each statement) or a pending
`continue` (checked at the top). -/
def whileBodyLoop (ctx : Ctx) : Nat → Nat → Nat → EState → Option EState
  | 0, _, _, _ => none
  | fuel + 1, bi, ewi, s =>
    if bi < ewi ∧ s.shouldExit = false ∧ s.shouldBreak = false then
      if s.shouldContinue then some s
      else
        match whileBodyStep ctx fuel bi s with
        | none => none
        | some (bi2, s2) =>
          if s2.shouldBreak then some s2
          else whileBodyLoop ctx fuel bi2 ewi s2
    else some s
termination_by structural fuel => fuel

/-- One statement dispatch inside a while body (lines 737-744). -/
def whileBodyStep (ctx : Ctx) : Nat → Nat → EState → Option (Nat × EState)
  | 0, _, _ => none
  | fuel + 1, bi, s =>
    let line := jsTrim (ctx.lines.getD bi "")
    if strStarts line "§if[" then processCondition ctx fuel bi s
    else if strStarts line "§while[" then processWhile ctx fuel bi s
    else some (bi + 1, executeLine ctx line s)
termination_by structural fuel => fuel

/-- `processFor` (interpreter.js lines 771-849): match `§for[v;a;b]`,
resolve and parse both bounds (each via `evaluateNestedFunctions`), scan
for the first `§endfor`, iterate the counter from start (inclusive) to end
(exclusive) with the 10000-iteration ceiling, and continue after the
`§endfor`. -/
def processFor (ctx : Ctx) : Nat → Nat → EState → Option (Nat × EState)
  | 0, _, _ => none
  | fuel + 1, startIndex, s =>
    let forLine := jsTrim (ctx.lines.getD startIndex "")
    match matchFor forLine with
    | none => some (startIndex + 1, s)
    | some (rawVar, startExpr, endExpr) =>
      let varName := jsTrim rawVar
      let sv := ctx.evalNested (jsTrim startExpr) s
      let startVal := jsParseFloat sv.1
      let ev := ctx.evalNested (jsTrim endExpr) sv.2
      let endVal := jsParseFloat ev.1
      match findFirstFrom "§endfor" ctx.lines (startIndex + 1) with
      | none => some (ctx.lines.length, {ev.2 with errors := ev.2.errors ++ [forNotFoundMsg]})
      | some efi =>
        match startVal, endVal with
        | some i0, some e =>
          match forLoopAux ctx fuel varName i0 e (startIndex + 1) efi 0 ev.2 with
          | none => none
          | some (ic, s3) =>
            let s4 := if 10000 ≤ ic then {s3 with errors := s3.errors ++ [forRunawayMsg]}
                      else s3
            some (efi + 1, s4)
        | _, _ => some (efi + 1, ev.2)
termination_by structural fuel => fuel

/-- The iteration loop of `processFor` (lines 801-842): while
`i < endVal`, the ceiling is not reached and `exit` is unset — bind the
loop variable to `String(i)`, run the body, stop on `break` (consuming the
flag, without counting the iteration), else count and increment. -/
def forLoopAux (ctx : Ctx) : Nat → String → JsNum → JsNum → Nat → Nat → Nat → EState →
    Option (Nat × EState)
  | 0, _, _, _, _, _, _, _ => none
  | fuel + 1, varName, i, e, bodyStart, efi, iterCount, s =>
    if i.blt e = true ∧ iterCount < 10000 ∧ s.shouldExit = false then
      let s1 := {s with vars := setVar s.vars varName (jsNumToString i)}
      match forBodyLoop ctx fuel bodyStart efi s1 with
      | none => none
      | some s2 =>
        if s2.shouldBreak then some (iterCount, {s2 with shouldBreak := false})
        else forLoopAux ctx fuel varName i.inc e bodyStart efi (iterCount + 1) s2
    else some (iterCount, s)
termination_by structural fuel => fuel

/-- The body loop of one for iteration (lines 807-830): runs lines up to
(excluding) the `§endfor` index; `continue` is consumed (flag cleared) when
caught after a statement, `break` is left set for `forLoopAux` to consume. -/
def forBodyLoop (ctx : Ctx) : Nat → Nat → Nat → EState → Option EState
  | 0, _, _, _ => none
  | fuel + 1, ci, efi, s =>
    if ci < efi ∧ s.shouldExit = false ∧ s.shouldBreak = false then
      match forBodyStep ctx fuel ci s with
      | none => none
      | some (ci2, s2) =>
        if s2.shouldContinue then some {s2 with shouldContinue := false}
        else if s2.shouldBreak then some s2
        else forBodyLoop ctx fuel ci2 efi s2
    else some s
termination_by structural fuel => fuel

/-- One statement dispatch inside a for body (lines 808-821). -/
def forBodyStep (ctx : Ctx) : Nat → Nat → EState → Option (Nat × EState)
  | 0, _, _ => none
  | fuel + 1, ci, s =>
    let line := jsTrim (ctx.lines.getD ci "")
    if strStarts line "§if[" then processCondition ctx fuel ci s
    else if strStarts line "§while[" then processWhile ctx fuel ci s
    else if strStarts line "§for[" then processFor ctx fuel ci s
    else if line ≠ "" ∧ ¬(strStarts line "#") then some (ci + 1, executeLine ctx line s)
    else some (ci + 1, s)
termination_by structural fuel => fuel

/-- The top-level run loop of `execute` (lines 426-429). -/
def runMain (ctx : Ctx) : Nat → Nat → EState → Option EState
  | 0, _, _ => none
  | fuel + 1, i, s =>
    if i < ctx.lines.length ∧ s.shouldExit = false then
      match processLine ctx fuel i s with
      | none => none
      | some (i2, s2) => runMain ctx fuel i2 s2
    else some s
termination_by structural fuel => fuel

end

/-- `handleBreak` (src/lib/utils.js lines 565-571). -/
def handleBreak (_args : String) (s : EState) : EState := {s with shouldBreak := true}

/-- `handleContinue` (src/lib/utils.js lines 573-579). -/
def handleContinue (_args : String) (s : EState) : EState := {s with shouldContinue := true}

/-- Model of `parseInt(x) || 0` (radix-10 prefix parse; hex autodetection
is not modelled — unused by any claim). -/
def jsParseIntOr0 (s : String) : Int :=
  let l := s.data.dropWhile isJsWs
  let neg : Bool := match l with | '-' :: _ => true | _ => false
  let l1 := match l with | '-' :: r => r | '+' :: r => r | r => r
  let ds := l1.takeWhile isDigitCh
  if ds.isEmpty then 0
  else if neg then -(natOfDigits ds : Int) else (natOfDigits ds : Int)

/-- `handleExit` (src/lib/utils.js lines 131-142). -/
def handleExit (args : String) (s : EState) : EState :=
  {s with shouldExit := true, exitCode := jsParseIntOr0 (replaceVariables s.vars args)}

/-- The sub-registry of built-in handlers exercised by the control-flow
claims; the full registry (a parameter of the embedding) additionally
contains the output/string/file handlers and plugin entries, none of which
touch the control flags. -/
def ctrlRegistry : String → Option (String → EState → EState) := fun name =>
  if name = "break" then some handleBreak
  else if name = "continue" then some handleContinue
  else if name = "exit" then some handleExit
  else none

/-- Depth-counted terminator scan for `§while`, as the specification
describes it (comparison definition written from the spec's words for C1:
increment on each nested `§while` opener, decrement on each `§endwhile`,
stop at the closer of the starting block). -/
def findEndWhileDepth (lines : List String) (start : Nat) : Option Nat :=
  go (lines.drop start) start 0
where
  go : List String → Nat → Nat → Option Nat
    | [], _, _ => none
    | l :: rest, i, depth =>
      let t := jsTrim l
      if strStarts t "§while[" then go rest (i + 1) (depth + 1)
      else if strStarts t "§endwhile" then
        if depth = 0 then some i else go rest (i + 1) (depth - 1)
      else go rest (i + 1) depth

/-- A while-loop nested inside another while-loop; the outer body is
lines 1-4 (inner loop plus the statement `§y[]` after it). -/
def nestedWhileProg : List String :=
  ["§while[c]", "§while[d]", "§x[]", "§endwhile", "§y[]", "§endwhile", "§z[]"]

/-- Condition oracle for the C1 run: the outer condition `c` is true on its
first two tests (counting through the variable `n`, as a condition with
nested calls can) and false afterwards; the inner condition `d` is always
false. -/
def nestedWhileEval : String → EState → Bool × EState := fun c s =>
  if c = "c" then
    match lookupVar s.vars "n" with
    | none => (true, {s with vars := setVar s.vars "n" "1"})
    | some v =>
      if v = "1" then (true, {s with vars := setVar s.vars "n" "2"})
      else (false, s)
  else (false, s)

/-- The context of the C1 run: no registered handlers are needed. -/
def nestedWhileCtx : Ctx := ⟨nestedWhileProg, fun _ => none, nestedWhileEval, fun a s => (a, s)⟩

/-- C1 (code bug): `processWhile` locates the terminator of a while-loop by
scanning for the FIRST `§endwhile` with no depth counting, so for a nested
while-loop the inner loop's `§endwhile` (index 3) IS taken as the end of
the outer loop's body scan — the depth-counted scan the claim describes
would find index 5.  Consequently the outer-body statement `§y[]` after the
inner loop is excluded from the outer body: in a run whose outer condition
is true twice, `§y[]` executes only once (after the loop) instead of
twice. -/
theorem nested_while_scan_not_depth_counted :
    findFirstFrom "§endwhile" nestedWhileProg 1 = some 3 ∧
    findEndWhileDepth nestedWhileProg 1 = some 5 ∧
    runMain nestedWhileCtx 50 0 initState =
      some ⟨[("n", "2")], false, 0, false, false, ["§y[]", "§endwhile", "§z[]"], []⟩ ∧
    (["§y[]", "§endwhile", "§z[]"] : List String).count "§y[]" = 1 := by
  refine ⟨by decide, by decide, by decide, by decide⟩

/-- The conditional of C5: `§if[c0] … §elseif[c1] … §elseif[c2] … §else …
§endif` with one body statement per branch; `§endif` is at index 8. -/
def c5Prog : List String :=
  ["§if[c0]", "§a[]", "§elseif[c1]", "§b[]", "§elseif[c2]", "§c[]", "§else", "§d[]", "§endif"]

/-- Condition oracle for C5: returns the given truth value per condition
and records the evaluation in the variable store (a condition evaluation
can mutate state through nested calls), so that "condition c was never
evaluated" is observable as the absence of the variable `q<c>`. -/
def c5Eval (b0 b1 b2 : Bool) : String → EState → Bool × EState := fun c s =>
  let s1 := {s with vars := setVar s.vars ("q" ++ c) "1"}
  if c = "c0" then (b0, s1)
  else if c = "c1" then (b1, s1)
  else if c = "c2" then (b2, s1)
  else (false, s1)

/-- C5 context (no registered handlers are needed; body statements are
observed through the trace). -/
def c5Ctx (b0 b1 b2 : Bool) : Ctx := ⟨c5Prog, fun _ => none, c5Eval b0 b1 b2, fun a s => (a, s)⟩

/-- C5: with the `§if` condition false, `elseif` conditions are evaluated in
source order (`qc0` then `qc1` appear in evaluation order in the store);
when the first `elseif` is true, only its body `§b[]` executes and the
second `elseif` condition is never evaluated (no `qc2`, and the result does
not depend on its would-be value `b2`); the `else` body runs only when no
branch matched; control then resumes at index 9, right after `§endif`. -/
theorem elseif_first_match_wins :
    ∀ b2 : Bool,
      processCondition (c5Ctx false true b2) 30 0 initState =
        some (9, ⟨[("qc0", "1"), ("qc1", "1")], false, 0, false, false, ["§b[]"], []⟩) ∧
      processCondition (c5Ctx false false true) 30 0 initState =
        some (9, ⟨[("qc0", "1"), ("qc1", "1"), ("qc2", "1")], false, 0, false, false, ["§c[]"], []⟩) ∧
      processCondition (c5Ctx false false false) 30 0 initState =
        some (9, ⟨[("qc0", "1"), ("qc1", "1"), ("qc2", "1")], false, 0, false, false, ["§d[]"], []⟩) := by
  intro b2
  refine ⟨?_, by decide, by decide⟩
  cases b2 <;> decide

theorem whileBody_stops_on_pending_break (ctx : Ctx) (fuel bi ewi : Nat) (s : EState)
    (h : s.shouldBreak = true) : whileBodyLoop ctx (fuel + 1) bi ewi s = some s := by
  rw [whileBodyLoop, if_neg (by simp [h])]

theorem whileBody_stops_on_pending_continue (ctx : Ctx) (fuel bi ewi : Nat) (s : EState)
    (h : s.shouldContinue = true) : whileBodyLoop ctx (fuel + 1) bi ewi s = some s := by
  rw [whileBodyLoop]
  by_cases hg : bi < ewi ∧ s.shouldExit = false ∧ s.shouldBreak = false
  · rw [if_pos hg, if_pos h]
  · rw [if_neg hg]

theorem whileLoopAux_step_eq (ctx : Ctx) (fuel : Nat) (cond : String) (bs ewi it : Nat)
    (s s1 : EState) (hc : ctx.evalCond cond s = (true, s1)) (hit : it < 1000)
    (hexit : s1.shouldExit = false) :
    whileLoopAux ctx (fuel + 1) cond bs ewi it s =
      (whileBodyLoop ctx fuel bs ewi
          {s1 with shouldBreak := false, shouldContinue := false}).bind
        (fun s3 => if s3.shouldBreak then some (it, s3)
                   else whileLoopAux ctx fuel cond bs ewi (it + 1) s3) := by
  rw [whileLoopAux]
  simp only [hc]
  rw [if_pos (by exact ⟨by simp, hit, hexit⟩)]
  cases hwb : whileBodyLoop ctx fuel bs ewi
      {s1 with shouldBreak := false, shouldContinue := false} <;>
    simp [hwb, Option.bind]

theorem whileLoop_break_terminates (ctx : Ctx) (fuel : Nat) (cond : String) (bs ewi it : Nat)
    (s s1 s3 : EState) (hc : ctx.evalCond cond s = (true, s1)) (hit : it < 1000)
    (hexit : s1.shouldExit = false)
    (hbody : whileBodyLoop ctx fuel bs ewi
      {s1 with shouldBreak := false, shouldContinue := false} = some s3)
    (hbr : s3.shouldBreak = true) :
    whileLoopAux ctx (fuel + 1) cond bs ewi it s = some (it, s3) := by
  rw [whileLoopAux_step_eq ctx fuel cond bs ewi it s s1 hc hit hexit, hbody]
  simp [Option.bind, hbr]

theorem whileLoop_continue_retests (ctx : Ctx) (fuel : Nat) (cond : String) (bs ewi it : Nat)
    (s s1 s3 : EState) (hc : ctx.evalCond cond s = (true, s1)) (hit : it < 1000)
    (hexit : s1.shouldExit = false)
    (hbody : whileBodyLoop ctx fuel bs ewi
      {s1 with shouldBreak := false, shouldContinue := false} = some s3)
    (hbr : s3.shouldBreak = false) :
    whileLoopAux ctx (fuel + 1) cond bs ewi it s =
      whileLoopAux ctx fuel cond bs ewi (it + 1) s3 := by
  rw [whileLoopAux_step_eq ctx fuel cond bs ewi it s s1 hc hit hexit, hbody]
  simp [Option.bind, hbr]

theorem forBody_stops_on_pending_break (ctx : Ctx) (fuel ci efi : Nat) (s : EState)
    (h : s.shouldBreak = true) : forBodyLoop ctx (fuel + 1) ci efi s = some s := by
  rw [forBodyLoop, if_neg (by simp [h])]

theorem forLoop_break_consumed (ctx : Ctx) (fuel : Nat) (varName : String) (i e : JsNum)
    (bs efi it : Nat) (s s2 : EState) (hlt : i.blt e = true) (hit : it < 10000)
    (hexit : s.shouldExit = false)
    (hbody : forBodyLoop ctx fuel bs efi
      {s with vars := setVar s.vars varName (jsNumToString i)} = some s2)
    (hbr : s2.shouldBreak = true) :
    forLoopAux ctx (fuel + 1) varName i e bs efi it s = some (it, {s2 with shouldBreak := false}) := by
  rw [forLoopAux, if_pos ⟨hlt, hit, hexit⟩]
  simp [hbody, hbr]

theorem forBody_no_stale_continue (ctx : Ctx) :
    ∀ (fuel ci efi : Nat) (s s2 : EState), s.shouldContinue = false →
      forBodyLoop ctx fuel ci efi s = some s2 → s2.shouldContinue = false := by
  intro fuel
  induction fuel with
  | zero =>
    intro ci efi s s2 h heq
    rw [forBodyLoop] at heq
    cases heq
  | succ f ih =>
    intro ci efi s s2 h heq
    rw [forBodyLoop] at heq
    by_cases hg : ci < efi ∧ s.shouldExit = false ∧ s.shouldBreak = false
    · rw [if_pos hg] at heq
      cases hstep : forBodyStep ctx f ci s with
      | none => rw [hstep] at heq; cases heq
      | some p =>
        obtain ⟨ci2, s5⟩ := p
        rw [hstep] at heq
        simp only [] at heq
        by_cases hc5 : s5.shouldContinue = true
        · rw [if_pos hc5] at heq
          cases heq
          rfl
        · rw [if_neg hc5] at heq
          by_cases hb5 : s5.shouldBreak = true
          · rw [if_pos hb5] at heq
            cases heq
            simpa using hc5
          · rw [if_neg hb5] at heq
            exact ih ci2 efi s5 s2 (by simpa using hc5) heq
    · rw [if_neg hg] at heq
      cases heq
      exact h

/-- C4 break demo: `§break` mid-body of a while whose condition is always
true. -/
def c4BreakCtx : Ctx :=
  ⟨["§while[c]", "§u[]", "§break", "§v[]", "§endwhile", "§w[]"],
   ctrlRegistry, fun _ s => (true, s), fun a s => (a, s)⟩

/-- C4 continue demo: condition true on the first two tests (counted in
`n`), then false. -/
def c4ContEval : String → EState → Bool × EState := fun _ s =>
  match lookupVar s.vars "n" with
  | none => (true, {s with vars := setVar s.vars "n" "1"})
  | some v => if v = "1" then (true, {s with vars := setVar s.vars "n" "2"}) else (false, s)

/-- C4 continue demo context. -/
def c4ContCtx : Ctx :=
  ⟨["§while[c]", "§u[]", "§continue", "§v[]", "§endwhile"],
   ctrlRegistry, c4ContEval, fun a s => (a, s)⟩

/-- C4 nested-loop demo: `§break` inside the inner of two nested for
loops. -/
def c4NestCtx : Ctx :=
  ⟨["§for[i;0;2]", "§for[j;0;2]", "§break", "§endfor", "§u[]", "§endfor"],
   ctrlRegistry, fun _ s => (false, s), fun a s => (a, s)⟩

/-- C4 for-continue demo. -/
def c4ForContCtx : Ctx :=
  ⟨["§for[i;0;2]", "§u[]", "§continue", "§v[]", "§endfor"],
   ctrlRegistry, fun _ s => (false, s), fun a s => (a, s)⟩

set_option maxHeartbeats 2000000 in
/-- C4: `§break` terminates the nearest enclosing loop — once a body
statement sets the break flag the rest of the body is skipped
(`whileBody_stops_on_pending_break` / `forBody_stops_on_pending_break`
conjuncts), the loop returns immediately with its iteration count frozen
regardless of the remaining iteration budget and of the condition
(`whileLoop_break_terminates` / `forLoop_break_consumed` conjuncts, the for
version also consuming the flag); `§continue` skips only the remainder of
the current iteration's body and the loop proceeds to its next test
(`whileBody_stops_on_pending_continue` / `whileLoop_continue_retests`
conjuncts); both flags are reset at each while-iteration boundary (the
cleared-state argument of the step equations) and no stale `continue`
carries into a new for iteration (`forBody_no_stale_continue` conjunct).
Four concrete runs demonstrate the behavior: the break run executes
`["§u[]", "§break"]` once and never `§v[]` despite an always-true
condition; the continue run executes `§u[]` twice and never `§v[]`; the
nested run shows the inner `§break` not terminating the outer loop (two
inner `§break` executions); the for-continue run skips `§v[]` in both
iterations. -/
theorem break_continue_loop_semantics :
    (∀ (ctx : Ctx) (fuel bi ewi : Nat) (s : EState), s.shouldBreak = true →
      whileBodyLoop ctx (fuel + 1) bi ewi s = some s) ∧
    (∀ (ctx : Ctx) (fuel bi ewi : Nat) (s : EState), s.shouldContinue = true →
      whileBodyLoop ctx (fuel + 1) bi ewi s = some s) ∧
    (∀ (ctx : Ctx) (fuel : Nat) (cond : String) (bs ewi it : Nat) (s s1 : EState),
      ctx.evalCond cond s = (true, s1) → it < 1000 → s1.shouldExit = false →
      whileLoopAux ctx (fuel + 1) cond bs ewi it s =
        (whileBodyLoop ctx fuel bs ewi
            {s1 with shouldBreak := false, shouldContinue := false}).bind
          (fun s3 => if s3.shouldBreak then some (it, s3)
                     else whileLoopAux ctx fuel cond bs ewi (it + 1) s3)) ∧
    (∀ (ctx : Ctx) (fuel : Nat) (cond : String) (bs ewi it : Nat) (s s1 s3 : EState),
      ctx.evalCond cond s = (true, s1) → it < 1000 → s1.shouldExit = false →
      whileBodyLoop ctx fuel bs ewi
        {s1 with shouldBreak := false, shouldContinue := false} = some s3 →
      s3.shouldBreak = true →
      whileLoopAux ctx (fuel + 1) cond bs ewi it s = some (it, s3)) ∧
    (∀ (ctx : Ctx) (fuel : Nat) (cond : String) (bs ewi it : Nat) (s s1 s3 : EState),
      ctx.evalCond cond s = (true, s1) → it < 1000 → s1.shouldExit = false →
      whileBodyLoop ctx fuel bs ewi
        {s1 with shouldBreak := false, shouldContinue := false} = some s3 →
      s3.shouldBreak = false →
      whileLoopAux ctx (fuel + 1) cond bs ewi it s =
        whileLoopAux ctx fuel cond bs ewi (it + 1) s3) ∧
    (∀ (ctx : Ctx) (fuel ci efi : Nat) (s : EState), s.shouldBreak = true →
      forBodyLoop ctx (fuel + 1) ci efi s = some s) ∧
    (∀ (ctx : Ctx) (fuel : Nat) (varName : String) (i e : JsNum) (bs efi it : Nat)
        (s s2 : EState),
      i.blt e = true → it < 10000 → s.shouldExit = false →
      forBodyLoop ctx fuel bs efi
        {s with vars := setVar s.vars varName (jsNumToString i)} = some s2 →
      s2.shouldBreak = true →
      forLoopAux ctx (fuel + 1) varName i e bs efi it s =
        some (it, {s2 with shouldBreak := false})) ∧
    (∀ (ctx : Ctx) (fuel ci efi : Nat) (s s2 : EState), s.shouldContinue = false →
      forBodyLoop ctx fuel ci efi s = some s2 → s2.shouldContinue = false) ∧
    runMain c4BreakCtx 30 0 initState =
      some ⟨[], false, 0, false, false, ["§u[]", "§break", "§w[]"], []⟩ ∧
    runMain c4ContCtx 30 0 initState =
      some ⟨[("n", "2")], false, 0, false, false,
        ["§u[]", "§continue", "§u[]", "§continue"], []⟩ ∧
    runMain c4NestCtx 60 0 initState =
      some ⟨[("i", "1"), ("j", "0")], false, 0, false, false,
        ["§break", "§break", "§u[]", "§endfor"], []⟩ ∧
    runMain c4ForContCtx 60 0 initState =
      some ⟨[("i", "1")], false, 0, false, false,
        ["§u[]", "§continue", "§u[]", "§continue"], []⟩ :=
  ⟨whileBody_stops_on_pending_break,
   whileBody_stops_on_pending_continue,
   whileLoopAux_step_eq,
   whileLoop_break_terminates,
   whileLoop_continue_retests,
   forBody_stops_on_pending_break,
   forLoop_break_consumed,
   forBody_no_stale_continue,
   by decide, by decide, by decide, by decide⟩

/-- Witness for C4 at a concrete input: a state with the break flag set
makes the while body skip its remaining statements. -/
theorem break_continue_loop_semantics_witness :
    whileBodyLoop c4BreakCtx 5 1 4 ⟨[], false, 0, true, false, [], []⟩ =
      some ⟨[], false, 0, true, false, [], []⟩ :=
  break_continue_loop_semantics.1 c4BreakCtx 4 1 4 ⟨[], false, 0, true, false, [], []⟩ rfl

theorem whileLoopAux_ceiling (ctx : Ctx) (cond : String) (bs ewi fuel : Nat)
    (hc : ∀ t, flagsClear t →
      (ctx.evalCond cond t).1 = true ∧ flagsClear (ctx.evalCond cond t).2)
    (hb : ∀ f t, fuel ≤ f → flagsClear t →
      ∃ t2, whileBodyLoop ctx f bs ewi t = some t2 ∧ flagsClear t2) :
    ∀ (n it F : Nat) (s : EState), it + n = 1000 → fuel + n + 1 ≤ F → flagsClear s →
      ∃ sL, whileLoopAux ctx F cond bs ewi it s = some (1000, sL) ∧ flagsClear sL := by
  intro n
  induction n with
  | zero =>
    intro it F s hn hF hs
    have hit : it = 1000 := by omega
    subst hit
    obtain ⟨F2, rfl⟩ : ∃ F2, F = F2 + 1 := ⟨F - 1, by omega⟩
    rcases hrs : ctx.evalCond cond s with ⟨r, s1⟩
    have hc' := hc s hs
    rw [hrs] at hc'
    rw [whileLoopAux]
    simp only [hrs]
    rw [if_neg (fun hcon => absurd hcon.2.1 (by omega))]
    exact ⟨s1, rfl, by simpa using hc'.2⟩
  | succ n ih =>
    intro it F s hn hF hs
    obtain ⟨F2, rfl⟩ : ∃ F2, F = F2 + 1 := ⟨F - 1, by omega⟩
    rcases hrs : ctx.evalCond cond s with ⟨r, s1⟩
    have hc' := hc s hs
    rw [hrs] at hc'
    have hr : r = true := by simpa using hc'.1
    have hcl1 : flagsClear s1 := by simpa using hc'.2
    rw [whileLoopAux]
    simp only [hrs]
    rw [if_pos ⟨hr, by omega, hcl1.1⟩]
    obtain ⟨t2, hbody, hcl2⟩ := hb F2 {s1 with shouldBreak := false, shouldContinue := false}
      (by omega) ⟨hcl1.1, rfl, rfl⟩
    simp only [hbody]
    rw [if_neg (by simp [hcl2.2.1])]
    exact ih (it + 1) F2 t2 (by omega) (by omega) hcl2

theorem forLoopAux_ceiling (ctx : Ctx) (varName : String) (i0 e : JsNum) (bs efi fuel : Nat)
    (hlt : ∀ k : Nat, k < 10000 → (JsNum.inc^[k] i0).blt e = true)
    (hb : ∀ f t, fuel ≤ f → flagsClear t →
      ∃ t2, forBodyLoop ctx f bs efi t = some t2 ∧ flagsClear t2) :
    ∀ (n it F : Nat) (s : EState), it + n = 10000 → fuel + n + 1 ≤ F → flagsClear s →
      ∃ sL, forLoopAux ctx F varName (JsNum.inc^[it] i0) e bs efi it s = some (10000, sL) ∧
        flagsClear sL := by
  intro n
  induction n with
  | zero =>
    intro it F s hn hF hs
    have hit : it = 10000 := by omega
    subst hit
    obtain ⟨F2, rfl⟩ : ∃ F2, F = F2 + 1 := ⟨F - 1, by omega⟩
    rw [forLoopAux]
    rw [if_neg (fun hcon => absurd hcon.2.1 (by omega))]
    exact ⟨s, rfl, hs⟩
  | succ n ih =>
    intro it F s hn hF hs
    obtain ⟨F2, rfl⟩ : ∃ F2, F = F2 + 1 := ⟨F - 1, by omega⟩
    rw [forLoopAux]
    rw [if_pos ⟨hlt it (by omega), by omega, hs.1⟩]
    obtain ⟨t2, hbody, hcl2⟩ := hb F2
      {s with vars := setVar s.vars varName (jsNumToString (JsNum.inc^[it] i0))}
      (by omega) ⟨hs.1, hs.2.1, hs.2.2⟩
    simp only [hbody]
    rw [if_neg (by simp [hcl2.2.1])]
    rw [show (JsNum.inc^[it] i0).inc = JsNum.inc^[it + 1] i0 from
      (Function.iterate_succ_apply' JsNum.inc it i0).symm]
    exact ih (it + 1) F2 t2 (by omega) (by omega) hcl2

/-- C3: a while-loop whose condition never becomes false (and whose
condition evaluation and body set no control flag) executes its body
exactly 1000 times (the final `iterationCount` is 1000), then the
runaway-loop error is reported and execution continues with the statement
after `§endwhile` (the returned program counter is `ewi + 1` and
`shouldExit` stays false, so the program is not aborted); the analogous
ceiling for a for-loop is 10000 iterations. -/
theorem runaway_loop_ceilings :
    (∀ (ctx : Ctx) (fuel : Nat) (cond : String) (si ewi : Nat) (s : EState),
      matchBracket "§while[" (jsTrim (ctx.lines.getD si "")) = some cond →
      findFirstFrom "§endwhile" ctx.lines (si + 1) = some ewi →
      (∀ t, flagsClear t →
        (ctx.evalCond cond t).1 = true ∧ flagsClear (ctx.evalCond cond t).2) →
      (∀ f t, fuel ≤ f → flagsClear t →
        ∃ t2, whileBodyLoop ctx f (si + 1) ewi t = some t2 ∧ flagsClear t2) →
      flagsClear s →
      ∃ sL, whileLoopAux ctx (fuel + 1001) cond (si + 1) ewi 0 s = some (1000, sL) ∧
        flagsClear sL ∧
        processWhile ctx (fuel + 1002) si s =
          some (ewi + 1,
            {sL with shouldBreak := false, shouldContinue := false,
                     errors := sL.errors ++ [whileRunawayMsg]})) ∧
    (∀ (ctx : Ctx) (fuel : Nat) (rawVar startExpr endExpr sv ev : String) (a b : JsNum)
        (si efi : Nat) (s s1 s2 : EState),
      matchFor (jsTrim (ctx.lines.getD si "")) = some (rawVar, startExpr, endExpr) →
      ctx.evalNested (jsTrim startExpr) s = (sv, s1) → jsParseFloat sv = some a →
      ctx.evalNested (jsTrim endExpr) s1 = (ev, s2) → jsParseFloat ev = some b →
      findFirstFrom "§endfor" ctx.lines (si + 1) = some efi →
      (∀ k : Nat, k < 10000 → (JsNum.inc^[k] a).blt b = true) →
      (∀ f t, fuel ≤ f → flagsClear t →
        ∃ t2, forBodyLoop ctx f (si + 1) efi t = some t2 ∧ flagsClear t2) →
      flagsClear s2 →
      ∃ sL, forLoopAux ctx (fuel + 10001) (jsTrim rawVar) a b (si + 1) efi 0 s2 =
          some (10000, sL) ∧ flagsClear sL ∧
        processFor ctx (fuel + 10002) si s =
          some (efi + 1, {sL with errors := sL.errors ++ [forRunawayMsg]})) := by
  constructor
  · intro ctx fuel cond si ewi s hline hend hc hb hs
    obtain ⟨sL, hloop, hclear⟩ :=
      whileLoopAux_ceiling ctx cond (si + 1) ewi fuel hc hb 1000 0 (fuel + 1001) s
        (by omega) (by omega) hs
    refine ⟨sL, hloop, hclear, ?_⟩
    have : fuel + 1002 = (fuel + 1001) + 1 := by omega
    rw [this, processWhile]
    simp only [hline, hend, hloop]
    rw [if_pos (by omega)]
  · intro ctx fuel rawVar startExpr endExpr sv ev a b si efi s s1 s2 hline hsv hpa hev hpb
      hend hlt hb hs2
    obtain ⟨sL, hloop, hclear⟩ :=
      forLoopAux_ceiling ctx (jsTrim rawVar) a b (si + 1) efi fuel hlt hb 10000 0
        (fuel + 10001) s2 (by omega) (by omega) hs2
    rw [Function.iterate_zero_apply] at hloop
    refine ⟨sL, hloop, hclear, ?_⟩
    have : fuel + 10002 = (fuel + 10001) + 1 := by omega
    rw [this, processFor]
    simp only [hline, hsv, hpa, hev, hpb, hend, hloop]
    rw [if_pos (by omega)]

/-- C3 witness context: `§while[true]` with an empty body. -/
def c3WhileCtx : Ctx :=
  ⟨["§while[true]", "§endwhile"], fun _ => none, fun _ s => (true, s), fun a s => (a, s)⟩

/-- C3 witness context: `§for[i;0;99999]` with an empty body. -/
def c3ForCtx : Ctx :=
  ⟨["§for[i;0;99999]", "§endfor"], fun _ => none, fun _ s => (false, s), fun a s => (a, s)⟩

/-- Witness for C3 at concrete inputs. -/
theorem runaway_loop_ceilings_witness :
    (∃ sL, whileLoopAux c3WhileCtx (1 + 1001) "true" 1 1 0 initState = some (1000, sL) ∧
      flagsClear sL ∧
      processWhile c3WhileCtx (1 + 1002) 0 initState =
        some (2,
          {sL with shouldBreak := false, shouldContinue := false,
                   errors := sL.errors ++ [whileRunawayMsg]})) ∧
    (∃ sL, forLoopAux c3ForCtx (1 + 10001) (jsTrim "i") ⟨0, 0⟩ ⟨99999, 0⟩ 1 1 0 initState =
        some (10000, sL) ∧ flagsClear sL ∧
      processFor c3ForCtx (1 + 10002) 0 initState =
        some (2, {sL with errors := sL.errors ++ [forRunawayMsg]})) := by
  constructor
  · exact runaway_loop_ceilings.1 c3WhileCtx 1 "true" 0 1 initState
      (by decide) (by decide)
      (fun t ht => ⟨rfl, ht⟩)
      (fun f t hf ht => by
        obtain ⟨f2, rfl⟩ : ∃ f2, f = f2 + 1 := ⟨f - 1, by omega⟩
        exact ⟨t, by rw [whileBodyLoop, if_neg (fun hcon => absurd hcon.1 (by omega))], ht⟩)
      ⟨rfl, rfl, rfl⟩
  · have hiter : ∀ m : Nat, JsNum.inc^[m] (⟨0, 0⟩ : JsNum) = ⟨m, 0⟩ := by
      intro m
      induction m with
      | zero => rfl
      | succ m ihm =>
        rw [Function.iterate_succ_apply', ihm]
        simp only [JsNum.inc, JsNum.mk.injEq]
        constructor
        · push_cast
          ring
        · trivial
    exact runaway_loop_ceilings.2 c3ForCtx 1 "i" "0" "99999" "0" "99999"
      ⟨0, 0⟩ ⟨99999, 0⟩ 0 1 initState initState initState
      (by decide) (by decide) (by decide) (by decide) (by decide) (by decide)
      (fun k hk => by
        rw [hiter k]
        simp only [JsNum.blt]
        simp only [pow_zero, mul_one]
        have : (k : Int) < 99999 := by omega
        simpa using this)
      (fun f t hf ht => by
        obtain ⟨f2, rfl⟩ : ∃ f2, f = f2 + 1 := ⟨f - 1, by omega⟩
        exact ⟨t, by rw [forBodyLoop, if_neg (fun hcon => absurd hcon.1 (by omega))], ht⟩)
      ⟨rfl, rfl, rfl⟩

/-- Block kinds tracked by the validator stack. -/
inductive BKind where
  | kIf : BKind
  | kWhile : BKind
  | kFor : BKind
deriving DecidableEq, Repr

/-- The name used in validator error messages. -/
def BKind.bname : BKind → String
  | .kIf => "if"
  | .kWhile => "while"
  | .kFor => "for"

/-- Generic single-character split (used to model `code.split('\n')`). -/
def splitChAux (sep : Char) : List Char → List Char → List (List Char)
  | [], acc => [acc.reverse]
  | c :: rest, acc =>
    if c = sep then acc.reverse :: splitChAux sep rest []
    else splitChAux sep rest (c :: acc)

/-- Model of `code.split('\n')`. -/
def splitNl (code : String) : List String :=
  (splitChAux '\n' code.data []).map (fun l => (⟨l⟩ : String))

/-- One step of `validateCode`'s close-terminator handling (lines 528-560):
pop on a kind match, record an error (keeping the stack) otherwise. -/
def closeStep (k : BKind) (token : String) (idx : Nat) (stack : List (BKind × Nat))
    (rest : List (BKind × Nat) → List String) : List String :=
  match stack with
  | [] => ("Unmatched " ++ token ++ " at line " ++ toString (idx + 1)) :: rest []
  | (t, ln) :: stack2 =>
    if t = k then rest stack2
    else ("Mismatched " ++ token ++ " at line " ++ toString (idx + 1) ++
      ", expected end of §" ++ t.bname ++ " started at line " ++ toString ln) :: rest stack

/-- `validateCode` (interpreter.js lines 512-575): walk all lines with a
single stack, pushing on `§if[`/`§while[`/`§for[`, popping on the matching
terminator (recording unmatched/mismatched errors), flagging orphan
`§elseif`/`§else`, and reporting every opener left unpopped at the end. -/
def validateAux : List String → Nat → List (BKind × Nat) → List String
  | [], _, stack =>
    stack.map (fun p => "Unclosed §" ++ p.1.bname ++ " starting at line " ++ toString p.2)
  | raw :: rest, idx, stack =>
    let line := jsTrim raw
    if line = "" ∨ strStarts line "#" = true then validateAux rest (idx + 1) stack
    else if strStarts line "§if[" then validateAux rest (idx + 1) ((.kIf, idx + 1) :: stack)
    else if strStarts line "§while[" then validateAux rest (idx + 1) ((.kWhile, idx + 1) :: stack)
    else if strStarts line "§for[" then validateAux rest (idx + 1) ((.kFor, idx + 1) :: stack)
    else if strStarts line "§endif" then
      closeStep .kIf "§endif" idx stack (validateAux rest (idx + 1))
    else if strStarts line "§endwhile" then
      closeStep .kWhile "§endwhile" idx stack (validateAux rest (idx + 1))
    else if strStarts line "§endfor" then
      closeStep .kFor "§endfor" idx stack (validateAux rest (idx + 1))
    else if strStarts line "§elseif[" || strStarts line "§else" then
      if stack.length = 0 ∨ (stack.head?.map Prod.fst) ≠ some .kIf then
        ((if strStarts line "§elseif[" then "§elseif" else "§else") ++ " at line " ++
          toString (idx + 1) ++ " without matching §if") :: validateAux rest (idx + 1) stack
      else validateAux rest (idx + 1) stack
    else validateAux rest (idx + 1) stack

/-- `validateCode` on the raw source string. -/
def validateCode (code : String) : List String := validateAux (splitNl code) 0 []

/-- Block open/close events of a line, mirroring the validator's cascade. -/
inductive Ev where
  | op : BKind → Ev
  | cl : BKind → Ev
deriving DecidableEq, Repr

/-- The block event (if any) a source line contributes. -/
def lineEv (raw : String) : Option Ev :=
  let line := jsTrim raw
  if line = "" ∨ strStarts line "#" = true then none
  else if strStarts line "§if[" then some (.op .kIf)
  else if strStarts line "§while[" then some (.op .kWhile)
  else if strStarts line "§for[" then some (.op .kFor)
  else if strStarts line "§endif" then some (.cl .kIf)
  else if strStarts line "§endwhile" then some (.cl .kWhile)
  else if strStarts line "§endfor" then some (.cl .kFor)
  else none

/-- The block events of a program. -/
def events (srcLines : List String) : List Ev := srcLines.filterMap lineEv

/-- The validator's stack machine on events alone: `none` as soon as a
close does not match the top of the stack. -/
def evProcessOK : List Ev → List BKind → Option (List BKind)
  | [], st => some st
  | Ev.op k :: r, st => evProcessOK r (k :: st)
  | Ev.cl k :: r, st =>
    match st with
    | [] => none
    | t :: st2 => if t = k then evProcessOK r st2 else none

/-- Specification-side notion of correctly matched blocks ("every opened
block has exactly one matching terminator of the same kind"): the language
generated by wrapping and concatenation. -/
inductive Bal : List Ev → Prop
  | nil : Bal []
  | blk : ∀ (k : BKind) (a b : List Ev), Bal a → Bal b →
      Bal (Ev.op k :: a ++ Ev.cl k :: b)

/-- `ClosesInv st evs`: the events `evs` first balance-close every pending
opener in `st` (top first), with balanced segments in between. -/
def ClosesInv : List BKind → List Ev → Prop
  | [], evs => Bal evs
  | k :: st, evs => ∃ a b, evs = a ++ Ev.cl k :: b ∧ Bal a ∧ ClosesInv st b

theorem evProcess_closesInv :
    ∀ (evs : List Ev) (st : List BKind), evProcessOK evs st = some [] → ClosesInv st evs := by
  intro evs
  induction evs with
  | nil =>
    intro st h
    rw [evProcessOK] at h
    cases h
    exact Bal.nil
  | cons e rest ih =>
    intro st h
    cases e with
    | op k =>
      rw [evProcessOK] at h
      have hrest := ih (k :: st) h
      obtain ⟨a, b, hab, hba, hcl⟩ := hrest
      cases st with
      | nil =>
        rw [ClosesInv] at hcl
        rw [ClosesInv]
        rw [hab]
        exact Bal.blk k a b hba hcl
      | cons k2 st2 =>
        obtain ⟨a2, b2, hab2, hba2, hcl2⟩ := hcl
        refine ⟨Ev.op k :: a ++ Ev.cl k :: a2, b2, ?_, Bal.blk k a a2 hba hba2, hcl2⟩
        rw [hab, hab2]
        simp
    | cl k =>
      cases st with
      | nil => rw [evProcessOK] at h; cases h
      | cons t st2 =>
        rw [evProcessOK] at h
        by_cases ht : t = k
        · rw [if_pos ht] at h
          subst ht
          exact ⟨[], rest, rfl, Bal.nil, ih st2 h⟩
        · rw [if_neg ht] at h
          cases h

theorem validateAux_ok :
    ∀ (lines : List String) (idx : Nat) (stack : List (BKind × Nat)),
      validateAux lines idx stack = [] →
      evProcessOK (events lines) (stack.map Prod.fst) = some [] := by
  intro lines
  induction lines with
  | nil =>
    intro idx stack h
    rw [validateAux] at h
    have hst : stack = [] := by
      cases stack with
      | nil => rfl
      | cons p st => simp at h
    subst hst
    rfl
  | cons raw rest ih =>
    intro idx stack h
    rw [validateAux] at h
    show evProcessOK ((raw :: rest).filterMap lineEv) (stack.map Prod.fst) = some []
    rw [List.filterMap_cons]
    by_cases h1 : jsTrim raw = "" ∨ strStarts (jsTrim raw) "#" = true
    · rw [if_pos h1] at h
      rw [show lineEv raw = none from by rw [lineEv]; rw [if_pos h1]]
      exact ih (idx + 1) stack h
    · rw [if_neg h1] at h
      by_cases h2 : strStarts (jsTrim raw) "§if[" = true
      · rw [if_pos h2] at h
        rw [show lineEv raw = some (.op .kIf) from by
          rw [lineEv]; rw [if_neg h1, if_pos h2]]
        rw [evProcessOK]
        exact ih (idx + 1) ((.kIf, idx + 1) :: stack) h
      · rw [if_neg h2] at h
        by_cases h3 : strStarts (jsTrim raw) "§while[" = true
        · rw [if_pos h3] at h
          rw [show lineEv raw = some (.op .kWhile) from by
            rw [lineEv]; rw [if_neg h1, if_neg h2, if_pos h3]]
          rw [evProcessOK]
          exact ih (idx + 1) ((.kWhile, idx + 1) :: stack) h
        · rw [if_neg h3] at h
          by_cases h4 : strStarts (jsTrim raw) "§for[" = true
          · rw [if_pos h4] at h
            rw [show lineEv raw = some (.op .kFor) from by
              rw [lineEv]; rw [if_neg h1, if_neg h2, if_neg h3, if_pos h4]]
            rw [evProcessOK]
            exact ih (idx + 1) ((.kFor, idx + 1) :: stack) h
          · rw [if_neg h4] at h
            by_cases h5 : strStarts (jsTrim raw) "§endif" = true
            · rw [if_pos h5] at h
              rw [show lineEv raw = some (.cl .kIf) from by
                rw [lineEv]
                rw [if_neg h1, if_neg h2, if_neg h3, if_neg h4, if_pos h5]]
              cases stack with
              | nil => rw [closeStep] at h; cases h
              | cons p st2 =>
                obtain ⟨t, ln⟩ := p
                rw [closeStep] at h
                by_cases ht : t = BKind.kIf
                · rw [if_pos ht] at h
                  subst ht
                  simp only [List.map_cons]
                  rw [evProcessOK, if_pos rfl]
                  exact ih (idx + 1) st2 h
                · rw [if_neg ht] at h
                  cases h
            · rw [if_neg h5] at h
              by_cases h6 : strStarts (jsTrim raw) "§endwhile" = true
              · rw [if_pos h6] at h
                rw [show lineEv raw = some (.cl .kWhile) from by
                  rw [lineEv]
                  rw [if_neg h1, if_neg h2, if_neg h3, if_neg h4, if_neg h5, if_pos h6]]
                cases stack with
                | nil => rw [closeStep] at h; cases h
                | cons p st2 =>
                  obtain ⟨t, ln⟩ := p
                  rw [closeStep] at h
                  by_cases ht : t = BKind.kWhile
                  · rw [if_pos ht] at h
                    subst ht
                    simp only [List.map_cons]
                    rw [evProcessOK, if_pos rfl]
                    exact ih (idx + 1) st2 h
                  · rw [if_neg ht] at h
                    cases h
              · rw [if_neg h6] at h
                by_cases h7 : strStarts (jsTrim raw) "§endfor" = true
                · rw [if_pos h7] at h
                  rw [show lineEv raw = some (.cl .kFor) from by
                    rw [lineEv]
                    rw [if_neg h1, if_neg h2, if_neg h3, if_neg h4, if_neg h5, if_neg h6,
                      if_pos h7]]
                  cases stack with
                  | nil => rw [closeStep] at h; cases h
                  | cons p st2 =>
                    obtain ⟨t, ln⟩ := p
                    rw [closeStep] at h
                    by_cases ht : t = BKind.kFor
                    · rw [if_pos ht] at h
                      subst ht
                      simp only [List.map_cons]
                      rw [evProcessOK, if_pos rfl]
                      exact ih (idx + 1) st2 h
                    · rw [if_neg ht] at h
                      cases h
                · rw [if_neg h7] at h
                  rw [show lineEv raw = none from by
                    rw [lineEv]
                    rw [if_neg h1, if_neg h2, if_neg h3, if_neg h4, if_neg h5, if_neg h6,
                      if_neg h7]]
                  by_cases h8 : (strStarts (jsTrim raw) "§elseif[" || strStarts (jsTrim raw) "§else") = true
                  · rw [if_pos h8] at h
                    by_cases h9 : stack.length = 0 ∨ (stack.head?.map Prod.fst) ≠ some BKind.kIf
                    · rw [if_pos h9] at h
                      cases h
                    · rw [if_neg h9] at h
                      exact ih (idx + 1) stack h
                  · rw [if_neg h8] at h
                    exact ih (idx + 1) stack h

theorem allws_trim_nil (l : List Char) (h : ∀ c ∈ l, isJsWs c = true) : jsTrimList l = [] := by
  rw [jsTrimList, List.dropWhile_eq_nil_iff.mpr h]
  rfl

theorem trim_nil_allws (l : List Char) (h : jsTrimList l = []) : ∀ c ∈ l, isJsWs c = true := by
  rw [jsTrimList] at h
  have h2 : (l.dropWhile isJsWs).reverse.dropWhile isJsWs = [] := by
    rwa [List.reverse_eq_nil_iff] at h
  have h4 : ∀ c ∈ l.dropWhile isJsWs, isJsWs c = true := fun c hc =>
    List.dropWhile_eq_nil_iff.mp h2 c (List.mem_reverse.mpr hc)
  intro c hc
  rw [← List.takeWhile_append_dropWhile (p := isJsWs) (l := l)] at hc
  rcases List.mem_append.mp hc with h5 | h5
  · exact List.mem_takeWhile_imp h5
  · exact h4 c h5

theorem splitChAux_mem (sep : Char) :
    ∀ (l acc piece : List Char), piece ∈ splitChAux sep l acc → ∀ c ∈ piece, c ∈ l ∨ c ∈ acc := by
  intro l
  induction l with
  | nil =>
    intro acc piece hp c hc
    rw [splitChAux] at hp
    simp only [List.mem_singleton] at hp
    subst hp
    exact Or.inr (List.mem_reverse.mp hc)
  | cons d rest ih =>
    intro acc piece hp c hc
    rw [splitChAux] at hp
    by_cases hd : d = sep
    · rw [if_pos hd] at hp
      rcases List.mem_cons.mp hp with h | h
      · subst h
        exact Or.inr (List.mem_reverse.mp hc)
      · rcases ih [] piece h c hc with h2 | h2
        · exact Or.inl (List.mem_cons_of_mem d h2)
        · cases h2
    · rw [if_neg hd] at hp
      rcases ih (d :: acc) piece hp c hc with h2 | h2
      · exact Or.inl (List.mem_cons_of_mem d h2)
      · rcases List.mem_cons.mp h2 with h3 | h3
        · exact Or.inl (h3 ▸ List.mem_cons_self d rest)
        · exact Or.inr h3

theorem blank_code_blank_lines (code : String) (h : jsTrim code = "") :
    ∀ raw ∈ splitNl code, jsTrim raw = "" := by
  intro raw hmem
  have hws : ∀ c ∈ code.data, isJsWs c = true :=
    trim_nil_allws code.data (congrArg String.data h)
  obtain ⟨piece, hpiece, hraw⟩ := List.mem_map.mp hmem
  have hall : ∀ c ∈ raw.data, isJsWs c = true := by
    intro c hc
    rw [← hraw] at hc
    rcases splitChAux_mem '\n' code.data [] piece hpiece c hc with h2 | h2
    · exact hws c h2
    · cases h2
  exact String.ext (allws_trim_nil raw.data hall)

theorem bal_length_even : ∀ evs : List Ev, Bal evs → evs.length % 2 = 0 := by
  intro evs h
  induction h with
  | nil => rfl
  | blk k a b _ _ iha ihb =>
    simp only [List.length_cons, List.length_append]
    omega

/-- `execute` (interpreter.js lines 405-436) on already-require-resolved
source text: reject blank source; run the pre-execution validator and
return failure carrying the collected errors and the untouched initial
state (zero statements executed) unless it reports zero errors; otherwise
filter blank/comment lines and drive the program-counter loop.
(`processRequires` is modelled separately — see C8; the `try/catch`
wrapper is inert here since the embedding throws no exceptions.) -/
def executeModel (fns : String → Option (String → EState → EState))
    (ec : String → EState → Bool × EState) (en : String → EState → String × EState)
    (fuel : Nat) (code : String) : Option (Bool × List String × EState) :=
  if jsTrim code = "" then some (false, [], initState)
  else
    let validationErrors := validateCode code
    if validationErrors ≠ [] then some (false, validationErrors, initState)
    else
      let lines := (splitNl code).filter
        (fun l => !(jsTrim l == "") && !(strStarts (jsTrim l) "#"))
      match runMain ⟨lines, fns, ec, en⟩ fuel 0 initState with
      | none => none
      | some s => some (true, [], s)

/-- C2: a program whose block openers/terminators are not correctly matched
(its open/close events are not in the matched-block language `Bal`) makes
`validateCode` report at least one error, and `execute` returns failure
carrying those errors with the state untouched — no statement executes
(first two conjuncts; `validateCode code = [] → Bal …` is the key
soundness direction).  Conversely execution begins only when the
validation pass yields zero errors: a successful run implies
`validateCode code = []` (last conjunct). -/
theorem unbalanced_program_rejected :
    (∀ code : String, validateCode code = [] → Bal (events (splitNl code))) ∧
    (∀ (fns : String → Option (String → EState → EState))
        (ec : String → EState → Bool × EState) (en : String → EState → String × EState)
        (fuel : Nat) (code : String),
      ¬ Bal (events (splitNl code)) →
      validateCode code ≠ [] ∧
      executeModel fns ec en fuel code = some (false, validateCode code, initState) ∧
      initState.trace = []) ∧
    (∀ (fns : String → Option (String → EState → EState))
        (ec : String → EState → Bool × EState) (en : String → EState → String × EState)
        (fuel : Nat) (code : String) (r : Bool) (errs : List String) (s : EState),
      executeModel fns ec en fuel code = some (r, errs, s) → r = true →
      validateCode code = []) := by
  have key : ∀ code : String, validateCode code = [] → Bal (events (splitNl code)) := by
    intro code h
    exact evProcess_closesInv (events (splitNl code)) [] (validateAux_ok (splitNl code) 0 [] h)
  refine ⟨key, ?_, ?_⟩
  · intro fns ec en fuel code hbal
    have hv : validateCode code ≠ [] := fun hz => hbal (key code hz)
    have hne : jsTrim code ≠ "" := by
      intro hblank
      apply hbal
      have : events (splitNl code) = [] := by
        apply List.filterMap_eq_nil_iff.mpr
        intro raw hraw
        rw [lineEv]
        rw [if_pos (Or.inl (blank_code_blank_lines code hblank raw hraw))]
      rw [this]
      exact Bal.nil
    refine ⟨hv, ?_, rfl⟩
    rw [executeModel, if_neg hne]
    simp only []
    rw [if_pos hv]
  · intro fns ec en fuel code r errs s h hr
    subst hr
    rw [executeModel] at h
    by_cases hne : jsTrim code = ""
    · rw [if_pos hne] at h
      cases h
    · rw [if_neg hne] at h
      simp only [] at h
      by_cases hv : validateCode code ≠ []
      · rw [if_pos hv] at h
        cases h
      · simpa using hv

/-- Witness for C2: an unclosed `§while` fails validation and `execute`
returns failure with the initial state untouched. -/
theorem unbalanced_program_rejected_witness :
    validateCode "§while[true]\n§log[x]" ≠ [] ∧
    executeModel (fun _ => none) (fun _ s => (true, s)) (fun a s => (a, s)) 10
      "§while[true]\n§log[x]" =
      some (false, validateCode "§while[true]\n§log[x]", initState) := by
  have hbal : ¬ Bal (events (splitNl "§while[true]\n§log[x]")) := by
    intro h
    have he : events (splitNl "§while[true]\n§log[x]") = [Ev.op .kWhile] := by decide
    rw [he] at h
    have := bal_length_even _ h
    simp at this
  have h := unbalanced_program_rejected.2.1 (fun _ => none) (fun _ s => (true, s))
    (fun a s => (a, s)) 10 "§while[true]\n§log[x]" hbal
  exact ⟨h.1, h.2.1⟩

/-- `resolveRequirePath` (interpreter.js lines 496-510): trim, append the
`.elios` extension when absent, make absolute against the working
directory (`path.join` segment normalization is not modelled). -/
def resolveRequirePath (cwd : String) (filePath : String) : String :=
  let p := jsTrim filePath
  let p2 := if strEnds p ".elios" then p else p ++ ".elios"
  if strStarts p2 "/" then p2 else cwd ++ "/" ++ p2

/-- Scanner for the global regex `§require\[([^\]]+)\]` used by
`processRequires`: successive non-overlapping matches in source order,
each as (full match text, argument text); scanning resumes after a match,
or one character further on a failed attempt, as the JS regex engine does.
The fuel is pure bookkeeping (each step consumes at least one character). -/
def requireScan : Nat → List Char → List (String × String)
  | 0, _ => []
  | _ + 1, [] => []
  | fuel + 1, c :: rest =>
    if c = '§' ∧ ("require[" : String).data.isPrefixOf rest then
      let afterOpen := rest.drop 8
      let arg := afterOpen.takeWhile (fun ch => !(ch = ']'))
      match afterOpen.drop arg.length with
      | ']' :: tail =>
        if arg.isEmpty then requireScan fuel rest
        else (⟨'§' :: (("require[" : String).data ++ arg ++ [']'])⟩, ⟨arg⟩) ::
          requireScan fuel tail
      | _ => requireScan fuel rest
    else requireScan fuel rest

/-- All matches of `§require\[([^\]]+)\]` in a source string. -/
def findRequireMatches (code : String) : List (String × String) :=
  requireScan (code.data.length + 1) code.data

/-- First-occurrence search-and-replace on character lists (model of JS
`String.prototype.replace` with a string pattern). -/
def replaceFirstAux (search repl : List Char) : Nat → List Char → List Char
  | 0, l => l
  | _ + 1, [] => []
  | fuel + 1, c :: rest =>
    if search.isPrefixOf (c :: rest) then repl ++ (c :: rest).drop search.length
    else c :: replaceFirstAux search repl fuel rest

/-- Model of `pc.replace(search, repl)` (string pattern: first occurrence). -/
def strReplaceFirst (pc search repl : String) : String :=
  ⟨replaceFirstAux search.data repl.data (pc.data.length + 1) pc.data⟩

/-- The no-op marker substituted for a circularly required file. -/
def circularMarker : String := "# Circular require skipped"

mutual

/-- `processRequires` (interpreter.js lines 443-489).  `fs` models the file
system as a path ↦ content table, `cwd` the working directory and `loaded`
the instance's `loadedFiles` set; the fuel bounds the file-inclusion
recursion (`none` = out of fuel; `processRequires_cycle_safe` exhibits a
sufficient bound for every input).  Returns the rewritten source together
with the grown `loaded` set. -/
def processRequires (fs : List (String × String)) (cwd : String) :
    Nat → List String → String → Option (String × List String)
  | 0, _, _ => none
  | fuel + 1, loaded, code => requiresGo fs cwd fuel (findRequireMatches code) loaded code
termination_by structural fuel => fuel

/-- The match loop of `processRequires` (lines 448-486): the matches `ms`
come from the ORIGINAL code while replacements accumulate in the processed
code.  An already-resolved path is replaced with the no-op marker instead
of being re-included; a missing file aborts the loop, returning the text
processed so far; otherwise the file is marked loaded, recursively
resolved, and spliced in place of the directive. -/
def requiresGo (fs : List (String × String)) (cwd : String) :
    Nat → List (String × String) → List String → String → Option (String × List String)
  | 0, _, _, _ => none
  | _ + 1, [], loaded, pc => some (pc, loaded)
  | fuel + 1, (full, arg) :: ms, loaded, pc =>
    let path := resolveRequirePath cwd arg
    if loaded.contains path then
      requiresGo fs cwd fuel ms loaded (strReplaceFirst pc full circularMarker)
    else
      match lookupVar fs path with
      | none => some (pc, loaded)
      | some content =>
        match processRequires fs cwd fuel (path :: loaded) content with
        | none => none
        | some (pContent, loaded2) =>
          requiresGo fs cwd fuel ms loaded2 (strReplaceFirst pc full pContent)
termination_by structural fuel => fuel

end

/-- Number of file-system paths not yet in the `loaded` set. -/
def unvisited (fs : List (String × String)) (loaded : List String) : Nat :=
  (fs.map Prod.fst).countP (fun p => !(loaded.contains p))

/-- An upper bound on the number of `§require` matches in the given source
and in every file-system content. -/
def matchBound (fs : List (String × String)) (code : String) : Nat :=
  (code :: fs.map Prod.snd).foldr (fun c acc => max (findRequireMatches c).length acc) 0

/-- Fuel that always suffices for `processRequires` (see
`processRequires_cycle_safe`). -/
def requiredFuel (fs : List (String × String)) (loaded : List String) (code : String) : Nat :=
  (matchBound fs code + 2) * (unvisited fs loaded + 1)

theorem countP_flip_lt (keys : List String) (p p2 : String → Bool) (x : String)
    (hx : x ∈ keys) (hp : p x = true) (hp2 : p2 x = false)
    (himp : ∀ a, p2 a = true → p a = true) :
    keys.countP p2 < keys.countP p := by
  induction keys with
  | nil => cases hx
  | cons a rest ih =>
    rw [List.countP_cons, List.countP_cons]
    rcases List.mem_cons.mp hx with h | h
    · subst h
      rw [hp, hp2]
      have : rest.countP p2 ≤ rest.countP p :=
        List.countP_mono_left (fun a _ ha => himp a ha)
      simp
      omega
    · have hstrict := ih h
      have hhead : (if p2 a = true then 1 else 0) ≤ (if p a = true then 1 else 0) := by
        by_cases hpa : p2 a = true
        · rw [if_pos hpa, if_pos (himp a hpa)]
        · rw [if_neg hpa]
          split <;> omega
      omega

theorem lookupVar_mem_pair (fs : List (String × String)) (k v : String)
    (h : lookupVar fs k = some v) : (k, v) ∈ fs := by
  rw [lookupVar] at h
  cases hf : fs.find? (fun p => p.1 == k) with
  | none => rw [hf] at h; cases h
  | some p =>
    rw [hf] at h
    cases h
    have hmem := List.mem_of_find?_eq_some hf
    have hbeq := List.find?_some hf
    have hk : p.1 = k := by simpa using hbeq
    rw [← hk]
    exact hmem

theorem requires_loaded_mono (fs : List (String × String)) (cwd : String) :
    ∀ fuel : Nat,
      (∀ loaded code pc2 loaded2,
        processRequires fs cwd fuel loaded code = some (pc2, loaded2) →
        ∀ x, loaded.contains x = true → loaded2.contains x = true) ∧
      (∀ ms loaded pc pc2 loaded2,
        requiresGo fs cwd fuel ms loaded pc = some (pc2, loaded2) →
        ∀ x, loaded.contains x = true → loaded2.contains x = true) := by
  intro fuel
  induction fuel with
  | zero =>
    constructor
    · intro loaded code pc2 loaded2 h
      rw [processRequires] at h
      cases h
    · intro ms loaded pc pc2 loaded2 h
      rw [requiresGo] at h
      cases h
  | succ f ih =>
    constructor
    · intro loaded code pc2 loaded2 h
      rw [processRequires] at h
      exact ih.2 _ _ _ _ _ h
    · intro ms loaded pc pc2 loaded2 h
      match ms with
      | [] =>
        rw [requiresGo] at h
        cases h
        exact fun x hx => hx
      | (full, arg) :: ms2 =>
        rw [requiresGo] at h
        by_cases hc : loaded.contains (resolveRequirePath cwd arg) = true
        · rw [if_pos hc] at h
          exact ih.2 _ _ _ _ _ h
        · rw [if_neg hc] at h
          cases hlk : lookupVar fs (resolveRequirePath cwd arg) with
          | none =>
            rw [hlk] at h
            cases h
            exact fun x hx => hx
          | some content =>
            rw [hlk] at h
            simp only [] at h
            cases hpr : processRequires fs cwd f (resolveRequirePath cwd arg :: loaded) content with
            | none => rw [hpr] at h; cases h
            | some q =>
              obtain ⟨pc3, loaded3⟩ := q
              rw [hpr] at h
              intro x hx
              have h1 : (resolveRequirePath cwd arg :: loaded).contains x = true := by
                simp only [List.contains_cons, hx, Bool.or_true]
              have h2 := ih.1 _ _ _ _ hpr x h1
              exact ih.2 _ _ _ _ _ h x h2

theorem le_foldr_max (f : String → Nat) (x : String) (l : List String) (hx : x ∈ l) :
    f x ≤ l.foldr (fun c acc => max (f c) acc) 0 := by
  induction l with
  | nil => cases hx
  | cons a rest ih =>
    rcases List.mem_cons.mp hx with h | h
    · subst h; exact le_max_left _ _
    · exact le_trans (ih h) (le_max_right _ _)

theorem processRequires_total (fs : List (String × String)) (cwd : String) (M : Nat)
    (HM : ∀ p c, (p, c) ∈ fs → (findRequireMatches c).length ≤ M) :
    ∀ u : Nat, ∀ loaded code fuel, unvisited fs loaded ≤ u →
      (findRequireMatches code).length ≤ M → (M + 2) * (u + 1) ≤ fuel →
      (processRequires fs cwd fuel loaded code).isSome = true := by
  intro u
  induction u using Nat.strong_induction_on with
  | _ u ihu =>
    have B : ∀ ms : List (String × String), ∀ loaded pc fuel, unvisited fs loaded ≤ u →
        ms.length + (M + 2) * u + 1 ≤ fuel →
        (requiresGo fs cwd fuel ms loaded pc).isSome = true := by
      intro ms
      induction ms with
      | nil =>
        intro loaded pc fuel hu hf
        obtain ⟨f, rfl⟩ : ∃ f, fuel = f + 1 := ⟨fuel - 1, by omega⟩
        rw [requiresGo]
        rfl
      | cons m ms2 ihm =>
        obtain ⟨full, arg⟩ := m
        intro loaded pc fuel hu hf
        obtain ⟨f, rfl⟩ : ∃ f, fuel = f + 1 := ⟨fuel - 1, by omega⟩
        rw [requiresGo]
        by_cases hc : loaded.contains (resolveRequirePath cwd arg) = true
        · rw [if_pos hc]
          refine ihm loaded _ f hu ?hsib
          simp only [List.length_cons] at hf
          omega
        · rw [if_neg hc]
          cases hlk : lookupVar fs (resolveRequirePath cwd arg) with
          | none => simp
          | some content =>
            simp only []
            have hmem : (resolveRequirePath cwd arg, content) ∈ fs :=
              lookupVar_mem_pair fs _ _ hlk
            have hkey : resolveRequirePath cwd arg ∈ fs.map Prod.fst :=
              List.mem_map.mpr ⟨(resolveRequirePath cwd arg, content), hmem, rfl⟩
            have hcf : loaded.contains (resolveRequirePath cwd arg) = false :=
              Bool.eq_false_iff.mpr hc
            have hdec : unvisited fs (resolveRequirePath cwd arg :: loaded) <
                unvisited fs loaded := by
              refine countP_flip_lt _ _ _ (resolveRequirePath cwd arg) hkey ?hp ?hp2 ?himp
              · rw [hcf]; rfl
              · simp
              · intro a ha
                simp only [List.contains_cons, Bool.not_or, Bool.and_eq_true] at ha
                exact ha.2
            have hA := ihu (u - 1) (by omega) (resolveRequirePath cwd arg :: loaded) content f
              (by omega) (HM _ _ hmem)
              (by
                have h1 : u - 1 + 1 = u := by omega
                rw [h1]
                simp only [List.length_cons] at hf
                omega)
            cases hpr : processRequires fs cwd f (resolveRequirePath cwd arg :: loaded)
                content with
            | none => rw [hpr] at hA; simp at hA
            | some q =>
              obtain ⟨pContent, loaded2⟩ := q
              simp only []
              have hmono := (requires_loaded_mono fs cwd f).1 _ _ _ _ hpr
              have hsub : unvisited fs loaded2 ≤
                  unvisited fs (resolveRequirePath cwd arg :: loaded) := by
                simp only [unvisited]
                refine List.countP_mono_left ?hmo
                intro a _ ha
                cases hq : (resolveRequirePath cwd arg :: loaded).contains a with
                | true =>
                  have h2 := hmono a hq
                  rw [h2] at ha
                  simp at ha
                | false => rfl
              refine ihm loaded2 _ f (by omega) ?hsib2
              simp only [List.length_cons] at hf
              omega
    intro loaded code fuel hu hm hf
    have hpos : 1 ≤ (M + 2) * (u + 1) := Nat.mul_pos (by omega) (by omega)
    obtain ⟨f, rfl⟩ : ∃ f, fuel = f + 1 := ⟨fuel - 1, by omega⟩
    rw [processRequires]
    refine B (findRequireMatches code) loaded code f hu ?hmain
    have hexp : (M + 2) * (u + 1) = (M + 2) * u + (M + 2) := by ring
    rw [hexp] at hf
    omega

/-- C8: require resolution terminates on every input — in particular on
require cycles — when given the fuel `requiredFuel` computable from the
input (conjunct 1: the fuel-out answer `none` is never forced, so the
recursion depth is bounded and there is no infinite recursion); a require
directive whose resolved absolute path is already in the loaded set is
replaced by the no-op marker `# Circular require skipped` instead of being
re-included (conjunct 2); and on the concrete two-file cycle A requires B,
B requires A, resolution returns the marker text with both paths loaded
once (conjunct 3). -/
theorem processRequires_cycle_safe :
    (∀ (fs : List (String × String)) (cwd : String) (loaded : List String) (code : String),
      (processRequires fs cwd (requiredFuel fs loaded code) loaded code).isSome = true) ∧
    (∀ (fs : List (String × String)) (cwd : String) (fuel : Nat) (full arg : String)
        (ms : List (String × String)) (loaded : List String) (pc : String),
      loaded.contains (resolveRequirePath cwd arg) = true →
      requiresGo fs cwd (fuel + 1) ((full, arg) :: ms) loaded pc =
        requiresGo fs cwd fuel ms loaded (strReplaceFirst pc full circularMarker)) ∧
    processRequires [("/A.elios", "§require[B]"), ("/B.elios", "§require[A]")] ""
        (requiredFuel [("/A.elios", "§require[B]"), ("/B.elios", "§require[A]")] []
          "§require[A]")
        [] "§require[A]" =
      some (circularMarker, ["/B.elios", "/A.elios"]) := by
  refine ⟨?total, ?marker, ?cycle⟩
  · intro fs cwd loaded code
    refine processRequires_total fs cwd (matchBound fs code) ?HM (unvisited fs loaded)
      loaded code _ le_rfl ?hcode (by simp [requiredFuel])
    · intro p c hmem
      exact le_foldr_max (fun c => (findRequireMatches c).length) c _
        (List.mem_cons_of_mem _ (List.mem_map.mpr ⟨(p, c), hmem, rfl⟩))
    · exact le_foldr_max (fun c => (findRequireMatches c).length) code _
        (List.mem_cons_self _ _)
  · intro fs cwd fuel full arg ms loaded pc h
    rw [requiresGo, if_pos h]
  · decide

/-- Witness for `processRequires_cycle_safe`: its marker equation applied at
a concrete already-loaded path. -/
theorem processRequires_cycle_safe_witness :
    requiresGo [] "" 1 [("§require[x]", "x")] ["/x.elios"] "§require[x]" =
      requiresGo [] "" 0 [] ["/x.elios"]
        (strReplaceFirst "§require[x]" "§require[x]" circularMarker) :=
  processRequires_cycle_safe.2.1 [] "" 0 "§require[x]" "x" [] ["/x.elios"] "§require[x]"
    (by decide)
